import Mathlib

/-!
Verification of the Memory Indexing & Retrieval Engine
(`src/memory/semantic-search.ts`, `src/memory/memory-linter.ts`, and the
`ImportResolver` in `src/memory/memory-linter.ts`'s companion file).

The TypeScript source is shallowly embedded:
* JavaScript strings are Lean `String`s (ASCII behaviour of
  `toLowerCase`, `\w`, `\s` is modelled by `Char.toLower`, `isWordChar`,
  `Char.isWhitespace`);
* JavaScript `Map`/`Set` (which iterate in insertion order) are modelled as
  association lists / duplicate-free lists in insertion order;
* IEEE doubles are modelled as exact real numbers (`Real`) for the semantic
  scoring functions and as exact rationals (`Rat`) for the linter metrics;
* `Date.now()` is modelled by an explicit `now : Int` parameter;
* the filesystem used by the import resolver is a partial map
  `String -> Option String` from normalized paths to file contents;
* `throw` is modelled with `Except`.
-/

/-! ## Basic character classes (JavaScript regex classes, ASCII) -/

/-- JavaScript `\w`: `[A-Za-z0-9_]`. -/
def isWordChar (c : Char) : Bool :=
  c.isAlphanum || c = '_'

/-- JavaScript `\s` (ASCII fragment): space, tab, newline, carriage return. -/
def isWsp (c : Char) : Bool :=
  c.isWhitespace

/-- `[a-z]`. -/
def isLowerAlpha (c : Char) : Bool :=
  'a' ≤ c && c ≤ 'z'

/-- `[A-Z]`. -/
def isUpperAlpha (c : Char) : Bool :=
  'A' ≤ c && c ≤ 'Z'

/-! ## String splitting and substring search -/

/--
JavaScript `str.split(regex)` where the regex is a character class with `+`
(a run of separator characters): runs of separators are single split points,
and a leading/trailing separator run produces a leading/trailing `""`.
-/
def splitOnRunsAux (p : Char → Bool) : Nat → List Char → List String
  | 0, _ => [""]
  | _ + 1, [] => [""]
  | fuel + 1, c :: rest =>
    if p c then
      "" :: splitOnRunsAux p fuel (rest.dropWhile p)
    else
      match splitOnRunsAux p fuel rest with
      | [] => [String.mk [c]]
      | t :: ts => (String.mk [c] ++ t) :: ts

def splitOnRuns (p : Char → Bool) (l : List Char) : List String :=
  splitOnRunsAux p (l.length + 1) l

/-- `content.split(re)` on a `String`. -/
def splitStr (p : Char → Bool) (s : String) : List String :=
  splitOnRuns p s.toList

/-- Contiguous-sublist test on character lists (JavaScript `String.includes`). -/
def containsSub (sub : List Char) : List Char → Bool
  | [] => sub.isEmpty
  | c :: rest => sub.isPrefixOf (c :: rest) || containsSub sub rest

/-- JavaScript `s.includes(sub)`. -/
def strIncludes (s sub : String) : Bool :=
  containsSub sub.toList s.toList

/-- JavaScript `toLowerCase` (character-wise, ASCII). -/
def strToLower (s : String) : String :=
  String.mk (s.toList.map Char.toLower)

/-- JavaScript `s.startsWith(pre)`. -/
def strStartsWith (s pre : String) : Bool :=
  pre.toList.isPrefixOf s.toList

/-- JavaScript `s.trim()`. -/
def strTrim (s : String) : String :=
  String.mk (((s.toList.dropWhile isWsp).reverse.dropWhile isWsp).reverse)

/-- JavaScript `s.substring(0, n)`. -/
def strTake (s : String) (n : Nat) : String :=
  String.mk (s.toList.take n)

/-- JavaScript `s.split(c)` for a single separator character (no run merging:
consecutive separators produce empty fields). -/
def splitOnChar (sep : Char) : List Char → List String
  | [] => [""]
  | c :: rest =>
    if c = sep then "" :: splitOnChar sep rest
    else
      match splitOnChar sep rest with
      | [] => [String.mk [c]]
      | t :: ts => (String.mk [c] ++ t) :: ts

/-! ## Keyword extraction (`extractKeywords`, semantic-search.ts:429-441) -/

/-- The fixed stop-word list of `extractKeywords`. -/
def stopWords : List String :=
  ["the", "and", "but", "for", "are", "with", "his", "they", "this", "have",
   "from", "not", "been", "that", "will", "what", "can", "all"]

/--
`extractKeywords(text)`: lowercase, replace `[^\w\s]` by a space, split on
`\s+`, keep tokens of length `> 2` that are not stop words.
-/
def extractKeywords (text : String) : List String :=
  let replaced := (strToLower text).toList.map fun c => if isWordChar c || isWsp c then c else ' '
  let words := (splitOnRuns isWsp replaced).filter fun w => w.length > 2
  words.filter fun w => ¬ stopWords.contains w

/-! ## Entity extraction (`extractEntities`, semantic-search.ts:443-472)

The four JavaScript regexes are implemented as explicit scanners over the
character list.  Each scanner reproduces the `g`-flag leftmost-match
semantics of the corresponding pattern; the analysis of greediness and
backtracking is recorded at each definition. -/

/-- Keep-first deduplication, the behaviour of `[...new Set(entities)]`. -/
def eraseDupsKeepFirstAux : Nat → List String → List String
  | 0, _ => []
  | _ + 1, [] => []
  | fuel + 1, x :: xs => x :: eraseDupsKeepFirstAux fuel (xs.filter fun y => y ≠ x)

def eraseDupsKeepFirst (l : List String) : List String :=
  eraseDupsKeepFirstAux (l.length + 1) l

/-- Maximal runs of `\w` characters, in order of occurrence. -/
def wordRunsAux : Nat → List Char → List (List Char)
  | 0, _ => []
  | _ + 1, [] => []
  | fuel + 1, c :: rest =>
    if isWordChar c then
      (c :: rest.takeWhile isWordChar) :: wordRunsAux fuel (rest.dropWhile isWordChar)
    else
      wordRunsAux fuel rest

def wordRuns (l : List Char) : List (List Char) :=
  wordRunsAux (l.length + 1) l

/--
`/\b[A-Z]{2,}\b/g`: because `\b` requires a non-word character on both sides
and every letter or digit is a word character, a match is exactly a maximal
`\w`-run that consists entirely of `[A-Z]` and has length at least 2.
-/
def matchAcronyms (l : List Char) : List String :=
  ((wordRuns l).filter fun r => r.length ≥ 2 && r.all isUpperAlpha).map String.mk

/--
One attempt of `/\b[A-Z][a-z]+\s+[A-Z][a-z]+\b/` at the head of `l`
(the caller has already checked the left `\b`).  Each `+` is forced to be
maximal: shortening `[a-z]+` leaves a lowercase (word, non-space) character
next, shortening `\s+` leaves a whitespace character next, and the final
`\b` holds only at the end of the maximal lowercase run, so backtracking
never yields a match the maximal attempt misses.  Returns the match and the
remainder of the input.
-/
def bigramAttempt (l : List Char) : Option (List Char × List Char) :=
  match l with
  | [] => none
  | c1 :: r1 =>
    if isUpperAlpha c1 then
      let low1 := r1.takeWhile isLowerAlpha
      if low1.isEmpty then none
      else
        let r2 := r1.dropWhile isLowerAlpha
        let ws := r2.takeWhile isWsp
        if ws.isEmpty then none
        else
          let r3 := r2.dropWhile isWsp
          match r3 with
          | [] => none
          | c2 :: r4 =>
            if isUpperAlpha c2 then
              let low2 := r4.takeWhile isLowerAlpha
              if low2.isEmpty then none
              else
                let r5 := r4.dropWhile isLowerAlpha
                match r5 with
                | [] => some (c1 :: low1 ++ ws ++ c2 :: low2, [])
                | d :: _ =>
                  if isWordChar d then none
                  else some (c1 :: low1 ++ ws ++ c2 :: low2, r5)
            else none
    else none

/--
Generic `g`-flag scan loop: scan left to right; `prevWord` records whether
the previous character was a word character (the attempt functions below all
begin with `\b`, which the caller checks through `prevWord`); after a match
the scan resumes at the match end (`lastIndex` semantics).  The `fuel`
argument only bounds the number of scan steps for termination; every step
consumes at least one character, so `l.length + 1` steps complete the scan.
-/
def scanMatches (attempt : List Char → Option (List Char × List Char)) :
    Nat → List Char → Bool → List String
  | 0, _, _ => []
  | _ + 1, [], _ => []
  | fuel + 1, c :: rest, prevWord =>
    if ¬ prevWord then
      match attempt (c :: rest) with
      | some (m, r) => String.mk m :: scanMatches attempt fuel r (isWordChar (m.getLastD 'a'))
      | none => scanMatches attempt fuel rest (isWordChar c)
    else
      scanMatches attempt fuel rest (isWordChar c)

/-- `/\b[A-Z][a-z]+\s+[A-Z][a-z]+\b/g` (names like "John Smith"). -/
def matchBigrams (l : List Char) : List String :=
  scanMatches bigramAttempt (l.length + 1) l false

/--
One attempt of `/\b\w+\.com\b/` at the head of `l`.  `\w+` must start at the
head (left `\b`) and is forced maximal (a shorter `\w+` leaves a word
character where `\.` is required), then the literal `.com` and the right
`\b` (next character absent or not a word character).
-/
def domainAttempt (l : List Char) : Option (List Char × List Char) :=
  match l with
  | [] => none
  | c :: rest =>
    if isWordChar c then
      let run := c :: rest.takeWhile isWordChar
      match rest.dropWhile isWordChar with
      | '.' :: 'c' :: 'o' :: 'm' :: r3 =>
        match r3 with
        | [] => some (run ++ ['.', 'c', 'o', 'm'], [])
        | d :: _ =>
          if isWordChar d then none
          else some (run ++ ['.', 'c', 'o', 'm'], r3)
      | _ => none
    else none

/-- `/\b\w+\.com\b/g` (domains). -/
def matchDomains (l : List Char) : List String :=
  scanMatches domainAttempt (l.length + 1) l false

/--
One attempt of `/\b\w+@\w+\.\w+\b/` at the head of `l`.  All three `\w+` are
forced maximal (shortening one leaves a word character where a literal `@`
or `.` is required; the final `\b` always holds after a maximal run).
-/
def emailAttempt (l : List Char) : Option (List Char × List Char) :=
  match l with
  | [] => none
  | c :: rest =>
    if isWordChar c then
      let w1 := c :: rest.takeWhile isWordChar
      match rest.dropWhile isWordChar with
      | '@' :: r3 =>
        let w2 := r3.takeWhile isWordChar
        if w2.isEmpty then none
        else
          match r3.dropWhile isWordChar with
          | '.' :: r5 =>
            let w3 := r5.takeWhile isWordChar
            if w3.isEmpty then none
            else some (w1 ++ '@' :: w2 ++ '.' :: w3, r5.dropWhile isWordChar)
          | _ => none
      | _ => none
    else none

/-- `/\b\w+@\w+\.\w+\b/g` (emails). -/
def matchEmails (l : List Char) : List String :=
  scanMatches emailAttempt (l.length + 1) l false

/--
`word[0] === word[0].toUpperCase()`: true also for digits and `_`, whose
`toUpperCase` is themselves (faithful to the JavaScript).
-/
def firstCharIsUpper (w : String) : Bool :=
  match w.toList with
  | [] => false
  | c :: _ => c = c.toUpper

/--
`extractEntities(text)` (semantic-search.ts:443-472): capitalized words
(split on `\s+`, strip `[^\w]`, length `> 2`, first character equal to its
uppercase), then the matches of the four patterns, deduplicated keeping
first occurrences.
-/
def extractEntities (text : String) : List String :=
  let words := splitStr isWsp text
  let capWords := words.filterMap fun w =>
    let w' := String.mk (w.toList.filter isWordChar)
    if w'.length > 2 && firstCharIsUpper w' then some w' else none
  let l := text.toList
  eraseDupsKeepFirst
    (capWords ++ matchBigrams l ++ matchAcronyms l ++ matchDomains l ++ matchEmails l)


/-! ## Hashing and pseudo-embedding vectors
(`simpleHash`, `generateSemanticVectors`, semantic-search.ts:474-508) -/

/-- Truncation to a 32-bit signed integer (JavaScript `x & x` / `<<`). -/
def toInt32 (x : Int) : Int :=
  (x + 2 ^ 31) % 2 ^ 32 - 2 ^ 31

/--
One step of `simpleHash`: `hash = ((hash << 5) - hash) + char; hash = hash & hash`.
`<< 5` truncates to 32 bits before the subtraction; the subtraction and the
addition of a char code are exact in doubles; `& hash` truncates again.
-/
def simpleHashStep (h : Int) (c : Char) : Int :=
  toInt32 (toInt32 (h * 32) - h + c.toNat)

/-- `simpleHash(str)` (semantic-search.ts:500-508). -/
def simpleHash (s : String) : Int :=
  s.toList.foldl simpleHashStep 0

/-- `vectorDimensions = 384`. -/
def vectorDimensions : Nat := 384

/-- Sum of squares (`vector.reduce((sum, val) => sum + val*val, 0)`). -/
noncomputable def sumSq (v : List ℝ) : ℝ :=
  (v.map fun x => x * x).sum

/--
`generateSemanticVectors(text)` (semantic-search.ts:474-498): start from the
all-zero vector of dimension 384; for the keyword at 0-based position `i`
add weight `1/(i+1)` at coordinate `|simpleHash(word)| % 384`; finally
divide by the Euclidean magnitude if it is positive.
-/
noncomputable def generateSemanticVectors (text : String) : List ℝ :=
  let words := extractKeywords text
  let v := words.enum.foldl
    (fun (v : List ℝ) p =>
      let index := (simpleHash p.2).natAbs % vectorDimensions
      v.set index (v.getD index 0 + 1 / ((p.1 : ℝ) + 1)))
    (List.replicate vectorDimensions (0 : ℝ))
  let magnitude := Real.sqrt (sumSq v)
  if magnitude > 0 then v.map (fun x => x / magnitude) else v

/-! ## Data model of the semantic index -/

/-- A JavaScript metadata value (only the shapes the engine inspects). -/
inductive MVal where
  | s (v : String)
  | b (v : Bool)
  | n (v : Int)
deriving DecidableEq

/-- JavaScript truthiness for the metadata values above. -/
def truthy : MVal → Bool
  | .s v => v ≠ ""
  | .b v => v
  | .n v => v ≠ 0

/-- First-match association-list lookup (JavaScript `Map.get`). -/
def alLookup {α : Type} : List (String × α) → String → Option α
  | [], _ => none
  | p :: rest, k => if p.1 = k then some p.2 else alLookup rest k

/--
JavaScript `Map.set`: replace in place if the key is present (iteration
order keeps the original position), otherwise append at the end.
-/
def alSet {α : Type} : List (String × α) → String → α → List (String × α)
  | [], k, v => [(k, v)]
  | p :: rest, k, v => if p.1 = k then (k, v) :: rest else p :: alSet rest k v

/-- JavaScript `Map.delete`: remove the entry with the given key. -/
def alErase {α : Type} : List (String × α) → String → List (String × α)
  | [], _ => []
  | p :: rest, k => if p.1 = k then rest else p :: alErase rest k

/-- JavaScript `Set.add`: append if not already present. -/
def listInsert (l : List String) (x : String) : List String :=
  if l.contains x then l else l ++ [x]

/-- `metadata.important` truthiness test. -/
def metaTruthy (md : List (String × MVal)) (k : String) : Bool :=
  match alLookup md k with
  | some v => truthy v
  | none => false

/-- `MemoryIndex` (the indexed entry, semantic-search.ts:25-34). -/
structure MemoryIndex where
  id : String
  content : String
  vectors : List ℝ
  keywords : List String
  entities : List String
  metadata : List (String × MVal)
  timestamp : Int
  source : String

/--
The mutable state of a `SemanticSearch` instance: the entry map and the two
posting maps, each in insertion order.
-/
structure SemanticSearchState where
  memoryIndex : List (String × MemoryIndex)
  keywordInvertedIndex : List (String × List String)
  entityIndex : List (String × List String)

def emptySearchState : SemanticSearchState := ⟨[], [], []⟩

/-! ## Inverted-index maintenance (semantic-search.ts:510-554) -/

/-- Add `id` to the posting set of each term (keyed by its lowercase form). -/
def addTermsToIdx (idx : List (String × List String)) (id : String)
    (terms : List String) : List (String × List String) :=
  terms.foldl
    (fun ix t =>
      let key := strToLower t
      match alLookup ix key with
      | none => alSet ix key [id]
      | some ids => alSet ix key (listInsert ids id))
    idx

/-- `updateInvertedIndexes(id, keywords, entities)`. -/
def updateInvertedIndexes (s : SemanticSearchState) (id : String)
    (kws ents : List String) : SemanticSearchState :=
  ⟨s.memoryIndex, addTermsToIdx s.keywordInvertedIndex id kws,
   addTermsToIdx s.entityIndex id ents⟩

/-- Delete `id` from one posting set, pruning the set if it becomes empty. -/
def removeTermFromIdx (idx : List (String × List String)) (key id : String) :
    List (String × List String) :=
  match alLookup idx key with
  | none => idx
  | some ids =>
    let ids' := ids.erase id
    if ids'.isEmpty then alErase idx key else alSet idx key ids'

def removeTermsFromIdx (idx : List (String × List String)) (id : String)
    (terms : List String) : List (String × List String) :=
  terms.foldl (fun ix t => removeTermFromIdx ix (strToLower t) id) idx

/-- `removeFromInvertedIndexes(id, keywords, entities)`. -/
def removeFromInvertedIndexes (s : SemanticSearchState) (id : String)
    (kws ents : List String) : SemanticSearchState :=
  ⟨s.memoryIndex, removeTermsFromIdx s.keywordInvertedIndex id kws,
   removeTermsFromIdx s.entityIndex id ents⟩

/-- `indexMemory(id, content, metadata, source)` (semantic-search.ts:55-96). -/
noncomputable def indexMemory (s : SemanticSearchState) (id content : String)
    (metadata : List (String × MVal)) (source : String) (now : Int) :
    SemanticSearchState :=
  let keywords := extractKeywords content
  let entities := extractEntities content
  let vectors := generateSemanticVectors content
  let entry : MemoryIndex := ⟨id, content, vectors, keywords, entities, metadata, now, source⟩
  let s1 : SemanticSearchState :=
    ⟨alSet s.memoryIndex id entry, s.keywordInvertedIndex, s.entityIndex⟩
  updateInvertedIndexes s1 id keywords entities

/-! ## Snapshot export / import (semantic-search.ts:365-427) -/

structure IndexSnapshot where
  memories : List MemoryIndex
  keywords : List (String × List String)
  entities : List (String × List String)
  exported : Int
  version : String

/-- `exportIndex()`: memories and both posting maps, in iteration order. -/
def exportIndex (s : SemanticSearchState) (now : Int) : IndexSnapshot :=
  ⟨s.memoryIndex.map Prod.snd, s.keywordInvertedIndex, s.entityIndex, now, "1.0.0"⟩

/--
`importIndex(indexData)`: clear all three maps, re-insert every memory under
its id, and rebuild each posting set with `new Set(ids)`.
-/
def importIndex (d : IndexSnapshot) : SemanticSearchState :=
  ⟨d.memories.foldl (fun acc m => alSet acc m.id m) [],
   d.keywords.foldl (fun acc pr => alSet acc pr.1 (eraseDupsKeepFirst pr.2)) [],
   d.entities.foldl (fun acc pr => alSet acc pr.1 (eraseDupsKeepFirst pr.2)) []⟩

/-! ## Relevance scoring (semantic-search.ts:617-694) -/

/-- `cosineSimilarity(a, b)` (semantic-search.ts:655-671). -/
noncomputable def cosineSimilarity (a b : List ℝ) : ℝ :=
  if a.length ≠ b.length then 0
  else
    let dotProduct := (List.zipWith (fun x y => x * y) a b).sum
    let normA := sumSq a
    let normB := sumSq b
    if normA = 0 ∨ normB = 0 then 0
    else dotProduct / (Real.sqrt normA * Real.sqrt normB)

/-- `calculateKeywordRelevance`: Jaccard similarity of lowercased keyword sets. -/
noncomputable def calculateKeywordRelevance (queryKeywords memoryKeywords : List String) : ℝ :=
  if queryKeywords.length = 0 ∨ memoryKeywords.length = 0 then 0
  else
    let querySet := eraseDupsKeepFirst (queryKeywords.map strToLower)
    let memorySet := eraseDupsKeepFirst (memoryKeywords.map strToLower)
    let inter := querySet.filter fun k => memorySet.contains k
    let union := eraseDupsKeepFirst (querySet ++ memorySet)
    (inter.length : ℝ) / (union.length : ℝ)

/-- `calculateEntityRelevance`: precision of query entities. -/
noncomputable def calculateEntityRelevance (queryEntities memoryEntities : List String) : ℝ :=
  if queryEntities.length = 0 ∨ memoryEntities.length = 0 then 0
  else
    let querySet := eraseDupsKeepFirst (queryEntities.map strToLower)
    let memorySet := eraseDupsKeepFirst (memoryEntities.map strToLower)
    let inter := querySet.filter fun k => memorySet.contains k
    (inter.length : ℝ) / (querySet.length : ℝ)

/-- `calculateRelevanceScore` (semantic-search.ts:617-653). -/
noncomputable def calculateRelevanceScore (query : String) (queryVectors : List ℝ)
    (queryKeywords queryEntities : List String) (memory : MemoryIndex) (now : Int) : ℝ :=
  let semanticScore := cosineSimilarity queryVectors memory.vectors
  let keywordScore := calculateKeywordRelevance queryKeywords memory.keywords
  let entityScore := calculateEntityRelevance queryEntities memory.entities
  let phraseScore : ℝ := if strIncludes (strToLower memory.content) (strToLower query) then 1.0 else 0.0
  let age : ℝ := ((now - memory.timestamp : Int) : ℝ)
  let recencyScore := Real.exp (-age / (30 * 24 * 60 * 60 * 1000))
  let priorityBoost : ℝ :=
    if alLookup memory.metadata "priority" = some (MVal.s "high") then 1.2 else 1.0
  let finalScore :=
    (semanticScore * 0.4 + keywordScore * 0.3 + entityScore * 0.15 +
     phraseScore * 0.1 + recencyScore * 0.05) * priorityBoost
  min finalScore 1.0

/-! ## Search (semantic-search.ts:101-171, 556-615, 696-720) -/

inductive SearchScope where
  | all
  | recent
  | important
deriving DecidableEq

structure SearchOptions where
  maxResults : Nat
  minRelevanceScore : ℝ
  includeContext : Bool
  searchScope : SearchScope
  timeRange : Option (Int × Int)

structure SearchResult where
  id : String
  content : String
  relevanceScore : ℝ
  metadata : List (String × MVal)
  context : Option String
  source : String
  timestamp : Int

/-- The `timeRange` and `searchScope` filters of `getCandidateMemories`. -/
def passesFilters (m : MemoryIndex) (opts : SearchOptions) (now : Int) : Bool :=
  (match opts.timeRange with
   | some tr => ¬ (m.timestamp < tr.1 || m.timestamp > tr.2)
   | none => true) &&
  (match opts.searchScope with
   | .recent => ¬ (now - m.timestamp > 7 * 24 * 60 * 60 * 1000)
   | .important =>
     alLookup m.metadata "priority" == some (MVal.s "high") || metaTruthy m.metadata "important"
   | .all => true)

/--
`getCandidateMemories` (semantic-search.ts:556-615): union (in insertion
order) of the posting sets of the query keywords, then the query entities;
if that union is empty, every id in the index; then the scope filters.
-/
def getCandidateMemories (s : SemanticSearchState) (queryKeywords queryEntities : List String)
    (opts : SearchOptions) (now : Int) : List MemoryIndex :=
  let ids1 := queryKeywords.foldl
    (fun acc k =>
      match alLookup s.keywordInvertedIndex (strToLower k) with
      | none => acc
      | some ids => ids.foldl listInsert acc)
    []
  let ids2 := queryEntities.foldl
    (fun acc e =>
      match alLookup s.entityIndex (strToLower e) with
      | none => acc
      | some ids => ids.foldl listInsert acc)
    ids1
  let ids3 := if ids2.isEmpty then (s.memoryIndex.map Prod.fst).foldl listInsert [] else ids2
  ids3.filterMap fun i =>
    match alLookup s.memoryIndex i with
    | none => none
    | some m => if passesFilters m opts now then some m else none

/--
`generateContext(memory, query)` (semantic-search.ts:696-720): the sentence
(split on `[.!?]+`) maximizing the fraction of query keywords it contains,
starting from the first sentence with best score 0 and replacing only on a
strictly better score; the fraction is computed exactly in `Rat`.
-/
def generateContext (memory : MemoryIndex) (query : String) : String :=
  let queryLower := strToLower query
  let sentences := splitStr (fun c => c = '.' || c = '!' || c = '?') memory.content
  let queryWords := extractKeywords queryLower
  let best := sentences.foldl
    (fun (acc : String × ℚ) sentence =>
      let words := extractKeywords (strToLower sentence)
      let nMatches := (words.filter fun w => queryWords.contains w).length
      let score : ℚ := (nMatches : ℚ) / (max queryWords.length 1 : ℚ)
      if score > acc.2 then (sentence, score) else acc)
    (sentences.headD "", 0)
  strTrim best.1

/--
Stable insertion into a descending-sorted result list: the new element goes
before the first element whose score is not larger.  A stable sort with this
comparator produces the unique list that is sorted by score descending and
keeps the original order of equal-score elements, which is exactly what
`scoredResults.sort((a, b) => b.relevanceScore - a.relevanceScore)` does
(JavaScript `Array.prototype.sort` is stable).
-/
noncomputable def insertResultDesc (r : SearchResult) : List SearchResult → List SearchResult
  | [] => [r]
  | x :: xs =>
    if x.relevanceScore ≤ r.relevanceScore then r :: x :: xs
    else x :: insertResultDesc r xs

noncomputable def sortResultsDesc : List SearchResult → List SearchResult
  | [] => []
  | x :: xs => insertResultDesc x (sortResultsDesc xs)

/-- `search(query, options)` (semantic-search.ts:101-171), with merged options. -/
noncomputable def search (s : SemanticSearchState) (query : String)
    (opts : SearchOptions) (now : Int) : List SearchResult :=
  let queryVectors := generateSemanticVectors query
  let queryKeywords := extractKeywords query
  let queryEntities := extractEntities query
  let candidates := getCandidateMemories s queryKeywords queryEntities opts now
  let scoredResults := candidates.filterMap fun memory =>
    let relevanceScore :=
      calculateRelevanceScore query queryVectors queryKeywords queryEntities memory now
    if relevanceScore ≥ opts.minRelevanceScore then
      some
        ⟨memory.id, memory.content, relevanceScore, memory.metadata,
         if opts.includeContext then some (generateContext memory query) else none,
         memory.source, memory.timestamp⟩
    else none
  (sortResultsDesc scoredResults).take opts.maxResults

inductive SemError where
  | notFound (id : String)
deriving DecidableEq

/-- `findSimilar(memoryId, options)` (semantic-search.ts:176-187). -/
noncomputable def findSimilar (s : SemanticSearchState) (memoryId : String)
    (opts : SearchOptions) (now : Int) : Except SemError (List SearchResult) :=
  match alLookup s.memoryIndex memoryId with
  | none => .error (.notFound memoryId)
  | some memory =>
    .ok (search s memory.content
      ⟨opts.maxResults, opts.minRelevanceScore, opts.includeContext, .all, opts.timeRange⟩ now)

/-- `updateMemory(id, newContent, metadata)` (semantic-search.ts:295-310). -/
noncomputable def updateMemory (s : SemanticSearchState) (id newContent : String)
    (metadata : List (String × MVal)) (now : Int) : Except SemError SemanticSearchState :=
  match alLookup s.memoryIndex id with
  | none => .error (.notFound id)
  | some existingMemory =>
    let s1 := removeFromInvertedIndexes s id existingMemory.keywords existingMemory.entities
    let merged :=
      alSet (metadata.foldl (fun acc p => alSet acc p.1 p.2) existingMemory.metadata)
        "lastModified" (MVal.n now)
    .ok (indexMemory s1 id newContent merged existingMemory.source now)

/-- `removeMemory(id)` (semantic-search.ts:315-331): returns a boolean. -/
def removeMemory (s : SemanticSearchState) (id : String) : Bool × SemanticSearchState :=
  match alLookup s.memoryIndex id with
  | none => (false, s)
  | some memory =>
    let s1 := removeFromInvertedIndexes s id memory.keywords memory.entities
    (true, ⟨alErase s1.memoryIndex id, s1.keywordInvertedIndex, s1.entityIndex⟩)

/-- One recorded `indexMemory` call. -/
structure IndexCall where
  id : String
  content : String
  metadata : List (String × MVal)
  source : String
  now : Int

/-- The state reached from a fresh instance by a sequence of `indexMemory` calls. -/
noncomputable def buildIndex (calls : List IndexCall) : SemanticSearchState :=
  calls.foldl (fun s c => indexMemory s c.id c.content c.metadata c.source c.now)
    emptySearchState

/-! ## Memory quality linter (`memory-linter.ts`)

All arithmetic is exact in `Rat`; JavaScript string lengths agree with
`String.length` on the ASCII fragment being modelled. -/

inductive Severity where
  | error
  | warning
  | info
deriving DecidableEq

structure LintRule where
  id : String
  name : String
  description : String
  severity : Severity
  category : String
  enabled : Bool

structure LintIssue where
  ruleId : String
  severity : Severity
  message : String
  line : Option Nat
  context : Option String
  suggestion : Option String

structure LintSummary where
  errors : Nat
  warnings : Nat
  infos : Nat

structure LintResult where
  content : String
  issues : List LintIssue
  score : ℚ
  summary : LintSummary

structure MemoryQualityMetrics where
  specificity : ℚ
  clarity : ℚ
  completeness : ℚ
  relevance : ℚ
  overall : ℚ

/--
Test for a pattern of the shape `d[^d]+d` (used for the inline-code regex
with `d` a backtick and the quoted-string regex with `d` a double quote):
a delimiter, at least one non-delimiter character, and a closing delimiter.
-/
def hasDelimPair (d : Char) : List Char → Bool
  | [] => false
  | c :: rest =>
    if c = d then
      let run := rest.takeWhile fun x => x ≠ d
      match rest.dropWhile (fun x => x ≠ d) with
      | [] => false
      | _ :: _ => if run.isEmpty then hasDelimPair d rest else true
    else hasDelimPair d rest

/--
`/\.[a-z]{2,4}\b/i`: a dot followed by letters.  `{2,4}` with a trailing
`\b` can only succeed when the whole maximal letter run after the dot is
consumed (any shorter prefix is followed by a letter, a word character), so
a match is a dot whose following maximal letter run has length 2 to 4 and is
followed by a non-word character or the end of the string.
-/
def hasFileExt : List Char → Bool
  | [] => false
  | c :: rest =>
    if c = '.' then
      let run := rest.takeWhile Char.isAlpha
      let ok := 2 ≤ run.length && run.length ≤ 4 &&
        (match rest.dropWhile Char.isAlpha with
         | [] => true
         | e :: _ => ¬ isWordChar e)
      if ok then true else hasFileExt rest
    else hasFileExt rest

/-- `measureSpecificity` (memory-linter.ts:578-597). -/
def measureSpecificity (content : String) : ℚ :=
  let l := content.toList
  let s0 : ℚ := 1/2
  let s1 := if l.any Char.isDigit then s0 + 1/10 else s0
  let s2 := if hasDelimPair (Char.ofNat 96) l then s1 + 1/10 else s1
  let s3 :=
    if strIncludes content "http://" || strIncludes content "https://" then s2 + 1/10 else s2
  let s4 := if hasFileExt l then s3 + 1/10 else s3
  let s5 := if hasDelimPair (Char.ofNat 34) l then s4 + 1/10 else s4
  let vagueWords := ["thing", "stuff", "something", "etc", "various"]
  let s6 := vagueWords.foldl
    (fun s w => if strIncludes (strToLower content) w then s - 1/20 else s) s5
  max 0 (min 1 s6)

/-- Sentence separator class `[.!?]`. -/
def isSentenceSep (c : Char) : Bool :=
  c = '.' || c = '!' || c = '?'

/-- `measureClarity` (memory-linter.ts:599-616). -/
def measureClarity (content : String) : ℚ :=
  let sentences := splitStr isSentenceSep content
  let avgSentenceLength : ℚ :=
    ((sentences.map String.length).sum : ℚ) / (sentences.length : ℚ)
  let s0 : ℚ := 7/10
  let s1 :=
    if avgSentenceLength < 50 then s0 + 2/10
    else if avgSentenceLength > 100 then s0 - 2/10
    else s0
  let complexWords := ((wordRuns content.toList).filter fun r => r.length ≥ 10).length
  let wordCount := (splitStr isWsp content).length
  let s2 :=
    if (complexWords : ℚ) > (wordCount : ℚ) * (1/10) then s1 - 1/10 else s1
  max 0 (min 1 s2)

/-- `measureCompleteness` (memory-linter.ts:618-632). -/
def measureCompleteness (content : String) : ℚ :=
  let s0 : ℚ := 1/2
  let s1 :=
    if strIncludes content "example" || strIncludes content "e.g." then s0 + 2/10 else s0
  let s2 :=
    if strIncludes content "because" || strIncludes content "why" then s1 + 1/10 else s1
  let s3 :=
    if strIncludes content "when" || strIncludes content "if" then s2 + 1/10 else s2
  let s4 :=
    if strIncludes content "how" || strIncludes content "step" then s3 + 1/10 else s3
  let lengthBonus : ℚ := min (1/10) ((content.length : ℚ) / 2000)
  max 0 (min 1 (s4 + lengthBonus))

/-- `measureRelevance` (memory-linter.ts:634-648). -/
def measureRelevance (content : String) : ℚ :=
  let techTerms := ["config", "api", "function", "command", "error", "test", "build", "deploy"]
  let foundTerms := techTerms.filter fun t => strIncludes (strToLower content) t
  let actionWords := ["use", "run", "set", "configure", "install", "update", "create"]
  let foundActions := actionWords.filter fun w => strIncludes (strToLower content) w
  let s : ℚ := 6/10 + (foundTerms.length : ℚ) * (5/100) + (foundActions.length : ℚ) * (3/100)
  max 0 (min 1 s)

/-- `calculateQualityMetrics` (memory-linter.ts:141-156). -/
def calculateQualityMetrics (content : String) : MemoryQualityMetrics :=
  let specificity := measureSpecificity content
  let clarity := measureClarity content
  let completeness := measureCompleteness content
  let relevance := measureRelevance content
  ⟨specificity, clarity, completeness, relevance,
   (specificity + clarity + completeness + relevance) / 4⟩

/-! ### The individual lint rules (memory-linter.ts:322-520) -/

/-- `checkSpecificity`. -/
def checkSpecificity (content : String) (rule : LintRule) : List LintIssue :=
  let vaguePhrases :=
    ["format code properly", "do it right", "make it better", "fix the issue",
     "handle this", "improve performance", "optimize this"]
  vaguePhrases.filterMap fun phrase =>
    if strIncludes (strToLower content) phrase then
      some ⟨rule.id, rule.severity, "Vague phrase detected: " ++ phrase, none, none,
            some "Specify exact actions, values, or methods."⟩
    else none

/-- `checkLength`. -/
def checkLength (content : String) (rule : LintRule) : List LintIssue :=
  if content.length < 10 then
    [⟨rule.id, .warning, "Memory entry is very short and may lack context", none, none,
      some "Add more detail to provide sufficient context"⟩]
  else if content.length > 1000 then
    [⟨rule.id, rule.severity, "Memory entry is very long and may be hard to process", none,
      none, some "Consider breaking this into smaller, focused entries"⟩]
  else []

/--
An attempt of `/\bw\b/` at the head of the input for a fixed word `w` (the
caller checks the left `\b`): `w` must be a prefix and be followed by a
non-word character or the end.
-/
def wholeWordAttempt (w : List Char) (l : List Char) : Option (List Char × List Char) :=
  if w.isPrefixOf l then
    match l.drop w.length with
    | [] => some (w, [])
    | e :: r => if isWordChar e then none else some (w, e :: r)
  else none

/-- Number of matches of `new RegExp("\\b" + w + "\\b", "gi")` in `content`. -/
def countWholeWordCI (content w : String) : Nat :=
  let l := (strToLower content).toList
  (scanMatches (wholeWordAttempt w.toList) (l.length + 1) l false).length

/-- `checkClarity`. -/
def checkClarity (content : String) (rule : LintRule) : List LintIssue :=
  let sentences := splitStr isSentenceSep content
  let longOnes := sentences.filterMap fun sentence =>
    if (strTrim sentence).length > 150 then
      some ⟨rule.id, rule.severity, "Long sentence detected that may be hard to understand",
            none, some (strTake (strTrim sentence) 100 ++ "..."),
            some "Break long sentences into shorter, clearer ones"⟩
    else none
  let unclearPronouns := ["this", "that", "it", "they"]
  let pronounIssues := unclearPronouns.filterMap fun pronoun =>
    if countWholeWordCI content pronoun > 3 then
      some ⟨rule.id, .info, "Frequent use of pronoun " ++ pronoun ++ " may reduce clarity",
            none, none, some "Replace some pronouns with specific nouns for clarity"⟩
    else none
  longOnes ++ pronounIssues

/--
The `@<run-of-non-whitespace>` tokens of `/@([^\s\n\r]+)/g`, in match order
(no `http` filtering here; that filter belongs to the resolver's
`extractImports`).  A token is the maximal non-whitespace run after an `@`;
the scan resumes after the token.
-/
def extractImportTokensAux : Nat → List Char → List String
  | 0, _ => []
  | _ + 1, [] => []
  | fuel + 1, c :: rest =>
    if c = '@' then
      let tok := rest.takeWhile fun d => ¬ isWsp d
      if tok.isEmpty then extractImportTokensAux fuel rest
      else String.mk tok :: extractImportTokensAux fuel (rest.drop tok.length)
    else extractImportTokensAux fuel rest

def extractImportTokens (l : List Char) : List String :=
  extractImportTokensAux (l.length + 1) l

/-- `checkImportSyntax` (the `import-syntax` rule, memory-linter.ts:405-443). -/
def checkImportSyntaxRule (content : String) (rule : LintRule) : List LintIssue :=
  (extractImportTokens content.toList).flatMap fun tok =>
    (if strIncludes tok " " then
       [⟨rule.id, rule.severity, "Import path contains spaces: " ++ tok, none, none,
         some "Remove spaces from import paths"⟩]
     else []) ++
    (if strIncludes tok (String.mk [Char.ofNat 92]) then
       [⟨rule.id, rule.severity, "Import path uses backslashes: " ++ tok, none, none,
         some "Use forward slashes for import paths"⟩]
     else []) ++
    (if strStartsWith tok "http:" then
       [⟨rule.id, rule.severity, "Insecure HTTP import: " ++ tok, none, none,
         some "Use HTTPS for external imports"⟩]
     else [])

/-- The consecutive 3-word phrases of a word list. -/
def threeWordPhrases : List String → List String
  | a :: b :: c :: rest => (a ++ " " ++ b ++ " " ++ c) :: threeWordPhrases (b :: c :: rest)
  | _ => []

/-- `checkDuplicateContent`. -/
def checkDuplicateContent (content : String) (rule : LintRule) : List LintIssue :=
  let words := splitStr isWsp (strToLower content)
  let phrases := threeWordPhrases words
  (eraseDupsKeepFirst phrases).filterMap fun phrase =>
    if phrases.count phrase > 2 && phrase.length > 10 then
      some ⟨rule.id, rule.severity, "Repeated phrase detected: " ++ phrase, none, none,
            some "Remove or rephrase repeated content"⟩
    else none

/--
One attempt of `/^[a-z]+\s+[a-z]+/` at the start of a line, returning the
greedy match length: a maximal `[a-z]` run, a maximal `\s` run, a maximal
`[a-z]` run (each nonempty).
-/
def cmdMatchLen (l : List Char) : Option Nat :=
  let r1 := l.takeWhile isLowerAlpha
  if r1.isEmpty then none
  else
    let l2 := l.dropWhile isLowerAlpha
    let ws := l2.takeWhile isWsp
    if ws.isEmpty then none
    else
      let r2 := (l2.dropWhile isWsp).takeWhile isLowerAlpha
      if r2.isEmpty then none
      else some (r1.length + ws.length + r2.length)

/--
`checkCommandFormat` (memory-linter.ts:472-498).  `commandPattern` is a
single `/^[a-z]+\s+[a-z]+/gm` regex object whose `lastIndex` persists across
the `test` calls of the loop: a successful `test` leaves `lastIndex` at the
match end, which makes the next `test` fail (no `^` anchor inside a line)
and reset `lastIndex` to 0.  The fold threads that `lastIndex`.
-/
def checkCommandFormat (content : String) (rule : LintRule) : List LintIssue :=
  let lines := splitOnChar '\n' content.toList
  (lines.enum.foldl
    (fun (acc : List LintIssue × Nat) p =>
      let line := strTrim p.2
      let test :=
        if acc.2 = 0 then
          match cmdMatchLen line.toList with
          | some n => (true, n)
          | none => (false, 0)
        else (false, 0)
      let issues :=
        if test.1 && ¬ strIncludes line (String.mk [Char.ofNat 96]) &&
            ¬ strStartsWith line (String.mk [Char.ofNat 96, Char.ofNat 96, Char.ofNat 96]) then
          if strIncludes line "npm" || strIncludes line "git" || strIncludes line "node" then
            acc.1 ++ [⟨rule.id, rule.severity, "Command should be formatted with backticks",
                       some (p.1 + 1), some line,
                       some "Use inline code or a bash code block"⟩]
          else acc.1
        else acc.1
      (issues, test.2))
    ([], 0)).1

/-- `checkContextCompleteness`. -/
def checkContextCompleteness (content : String) (rule : LintRule) : List LintIssue :=
  let lower := strToLower content
  let hasWhen := ["when", "if", "while", "during", "after", "before"].any fun w =>
    strIncludes lower w
  let hasWhy := ["because", "since", "due to", "reason", "purpose"].any fun w =>
    strIncludes lower w
  let hasHow := ["how", "method", "way", "process", "step"].any fun w =>
    strIncludes lower w
  let contextScore := [hasWhen, hasWhy, hasHow].count true
  if contextScore = 0 && content.length > 50 then
    [⟨rule.id, rule.severity, "Entry lacks context about when, why, or how this applies",
      none, none, some "Add context about when, why, or how to apply this"⟩]
  else []

/-- The seven default rules, in registration order (memory-linter.ts:227-290). -/
def defaultRules : List LintRule :=
  [⟨"specificity-check", "Specificity Check",
    "Ensures memory entries are specific rather than general", .warning, "content", true⟩,
   ⟨"length-check", "Length Check",
    "Checks if memory entry length is appropriate", .info, "content", true⟩,
   ⟨"clarity-check", "Clarity Check",
    "Ensures memory entries are clear and understandable", .warning, "content", true⟩,
   ⟨"import-syntax", "Import Syntax Check",
    "Validates import syntax in CLAUDE.md files", .error, "structure", true⟩,
   ⟨"duplicate-content", "Duplicate Content Check",
    "Identifies potentially duplicate memory entries", .warning, "content", true⟩,
   ⟨"command-format", "Command Format Check",
    "Validates command and code formatting", .info, "style", true⟩,
   ⟨"context-completeness", "Context Completeness",
    "Ensures entries have sufficient context", .warning, "content", true⟩]

/-- `applyRule` (memory-linter.ts:292-320): dispatch on the rule id. -/
def applyRule (rule : LintRule) (content : String) : List LintIssue :=
  if rule.id = "specificity-check" then checkSpecificity content rule
  else if rule.id = "length-check" then checkLength content rule
  else if rule.id = "clarity-check" then checkClarity content rule
  else if rule.id = "import-syntax" then checkImportSyntaxRule content rule
  else if rule.id = "duplicate-content" then checkDuplicateContent content rule
  else if rule.id = "command-format" then checkCommandFormat content rule
  else if rule.id = "context-completeness" then checkContextCompleteness content rule
  else []

/-- Points deducted per issue (memory-linter.ts:557-568). -/
def issueDeduction : Severity → ℚ
  | .error => 10
  | .warning => 5
  | .info => 1

/-- `calculateQualityScore` (memory-linter.ts:553-576). -/
def calculateQualityScore (content : String) (issues : List LintIssue) : ℚ :=
  let score := issues.foldl (fun s i => s - issueDeduction i.severity) (100 : ℚ)
  let bonusScore := (calculateQualityMetrics content).overall * 20
  max 0 (min 100 (score + bonusScore))

/-- `lintMemory(content)` (memory-linter.ts:59-95) with a given rule registry. -/
def lintMemory (rules : List LintRule) (content : String) : LintResult :=
  let issues := rules.flatMap fun r => if r.enabled then applyRule r content else []
  let score := calculateQualityScore content issues
  ⟨content, issues, score,
   ⟨(issues.filter fun i => i.severity = .error).length,
    (issues.filter fun i => i.severity = .warning).length,
    (issues.filter fun i => i.severity = .info).length⟩⟩

/-! ## Import resolver (`ImportResolver`, memory-linter companion file)

Node's `path.resolve` is modelled for a process whose working directory is
the filesystem root and for paths without `.`/`..` segments: an absolute
path (starting with `/`) resolves to itself, a relative path is joined to
the base.  The filesystem is a partial map from resolved paths to contents.
-/

structure ImportedContent where
  path : String
  content : String
  depth : Nat
  timestamp : Int
deriving DecidableEq

structure ImportOptions where
  maxDepth : Nat
  allowedExtensions : List String
  followSymlinks : Bool
  basePath : String

/-- Node `path.dirname` for slash-separated paths. -/
def dirname (p : String) : String :=
  let l := p.toList
  if l.contains '/' then
    let pre := (l.reverse.dropWhile fun c => c ≠ '/').reverse
    match pre with
    | ['/'] => "/"
    | _ => String.mk (pre.dropLast)
  else "."

/-- The default options built by `resolveImports` for a given root file. -/
def defaultImportOptions (filePath : String) : ImportOptions :=
  ⟨5, [".md", ".txt", ".yaml", ".yml", ".json"], false, dirname filePath⟩

/-- `path.resolve(p)` with cwd `/`. -/
def normalizePath (p : String) : String :=
  if strStartsWith p "/" then p else "/" ++ p

/-- `resolveImportPath(importPath, basePath)`. -/
def resolveImportPath (importPath basePath : String) : String :=
  if strStartsWith importPath "/" then importPath else basePath ++ "/" ++ importPath

/--
`isAllowedExtension`: the suffix of the lowercased path from its last dot
(when there is no dot, `lastIndexOf` returns `-1` and JavaScript
`substring(-1)` yields the whole string).
-/
def isAllowedExtension (filePath : String) (allowedExtensions : List String) : Bool :=
  let l := (strToLower filePath).toList
  let ext :=
    if l.contains '.' then '.' :: (l.reverse.takeWhile fun c => c ≠ '.').reverse
    else l
  allowedExtensions.contains (String.mk ext)

/-- `extractImports(content)`: the `@` tokens that do not start with `http`. -/
def extractImports (content : String) : List String :=
  (extractImportTokens content.toList).filter fun t => ¬ strStartsWith t "http"

/-- The logger warnings the resolver can emit. -/
inductive ResolverWarning where
  | maxDepthReached (path : String)
  | circularImport (path : String)
  | disallowedExtension (path : String)
  | importFailed (token : String)
deriving DecidableEq

/-- The per-instance mutable state: content cache, dependency graph, log. -/
structure ResolverState where
  importCache : List (String × ImportedContent)
  importGraph : List (String × List String)
  warnings : List ResolverWarning

def emptyResolverState : ResolverState := ⟨[], [], []⟩

def pushWarn (st : ResolverState) (w : ResolverWarning) : ResolverState :=
  ⟨st.importCache, st.importGraph, w :: st.warnings⟩

inductive ResolveError where
  | readFailed (path : String)
deriving DecidableEq

/--
The `for (const importPath of imports)` loop of `resolveRecursive`:
resolve each token against the base path, skip (with a warning) tokens with
a disallowed extension or whose target does not exist (`fs.access`), run the
recursive step, and on a thrown error warn and continue with the next
sibling; results are concatenated in declaration order.
-/
def processImports
    (step : String → ResolverState → Except ResolveError (List ImportedContent) × ResolverState)
    (fs : String → Option String) (opts : ImportOptions) (parentPath : String) :
    List String → ResolverState → List ImportedContent × ResolverState
  | [], st => ([], st)
  | tok :: rest, st =>
    let basePath := if opts.basePath = "" then dirname parentPath else opts.basePath
    let resolvedPath := resolveImportPath tok basePath
    if ¬ isAllowedExtension resolvedPath opts.allowedExtensions then
      processImports step fs opts parentPath rest (pushWarn st (.disallowedExtension resolvedPath))
    else
      match fs resolvedPath with
      | none => processImports step fs opts parentPath rest (pushWarn st (.importFailed tok))
      | some _ =>
        match step resolvedPath st with
        | (.error _, st1) =>
          processImports step fs opts parentPath rest (pushWarn st1 (.importFailed tok))
        | (.ok rs, st1) =>
          let (rest', st2) := processImports step fs opts parentPath rest st1
          (rs ++ rest', st2)

/--
`resolveRecursive(filePath, options, currentDepth, visited)`.  The `fuel`
argument is only a structural-termination device: every recursive call
increments `currentDepth` and decrements `fuel`, and the `currentDepth >
maxDepth` guard fires before `fuel` can reach 0 whenever the initial fuel is
at least `maxDepth + 2 - currentDepth`, so the `fuel = 0` branch is dead
code for the top-level call.  `visited` is the per-branch set, passed down
by value (a fresh copy per branch, like `new Set(visited)`).
-/
def resolveRecursive (fs : String → Option String) (opts : ImportOptions) (now : Int) :
    Nat → String → Nat → List String → ResolverState →
    Except ResolveError (List ImportedContent) × ResolverState
  | 0, _, _, _, st => (.ok [], st)
  | fuel + 1, filePath, currentDepth, visited, st =>
    if currentDepth > opts.maxDepth then
      (.ok [], pushWarn st (.maxDepthReached filePath))
    else
      let normalizedPath := normalizePath filePath
      if visited.contains normalizedPath then
        (.ok [], pushWarn st (.circularImport normalizedPath))
      else
        let visited' := normalizedPath :: visited
        match alLookup st.importCache normalizedPath with
        | some cached => (.ok [cached], st)
        | none =>
          match fs normalizedPath with
          | none => (.error (.readFailed normalizedPath), st)
          | some content =>
            let node : ImportedContent := ⟨normalizedPath, content, currentDepth, now⟩
            let st1 : ResolverState :=
              ⟨alSet st.importCache normalizedPath node, st.importGraph, st.warnings⟩
            let imports := extractImports content
            let st2 : ResolverState :=
              if imports.isEmpty then st1
              else ⟨st1.importCache,
                    alSet st1.importGraph normalizedPath (eraseDupsKeepFirst imports),
                    st1.warnings⟩
            let out := processImports
              (fun p s => resolveRecursive fs opts now fuel p (currentDepth + 1) visited' s)
              fs opts normalizedPath imports st2
            (.ok (node :: out.1), out.2)

/--
`resolveImports(filePath, options)`: run the recursion from depth 0 with an
empty per-branch visited set; only an error thrown by the root call (in
particular a root read failure) escapes to the caller.
-/
def resolveImports (fs : String → Option String) (opts : ImportOptions)
    (filePath : String) (st : ResolverState) (now : Int) :
    Except ResolveError (List ImportedContent) × ResolverState :=
  resolveRecursive fs opts now (opts.maxDepth + 2) filePath 0 [] st

/-! ## Association-list lemmas -/

theorem alSet_of_not_mem_keys {α : Type} (l : List (String × α)) (k : String) (v : α)
    (h : k ∉ l.map Prod.fst) : alSet l k v = l ++ [(k, v)] := by
  induction l with
  | nil => rfl
  | cons p rest ih =>
    simp only [List.map_cons, List.mem_cons] at h
    push_neg at h
    simp only [alSet]
    rw [if_neg fun hh => h.1 hh.symm]
    simp [ih h.2]

theorem map_fst_alSet_of_mem {α : Type} (l : List (String × α)) (k : String) (v : α)
    (h : k ∈ l.map Prod.fst) : (alSet l k v).map Prod.fst = l.map Prod.fst := by
  induction l with
  | nil => simp at h
  | cons p rest ih =>
    simp only [alSet]
    by_cases hp : p.1 = k
    · simp [hp]
    · simp only [List.map_cons, List.mem_cons] at h
      rcases h with h | h
      · exact absurd h.symm hp
      · simp [hp, ih h]

theorem nodup_map_fst_alSet {α : Type} (l : List (String × α)) (k : String) (v : α)
    (h : (l.map Prod.fst).Nodup) : ((alSet l k v).map Prod.fst).Nodup := by
  by_cases hk : k ∈ l.map Prod.fst
  · rw [map_fst_alSet_of_mem l k v hk]; exact h
  · rw [alSet_of_not_mem_keys l k v hk]
    simp [List.nodup_append, h, hk]

theorem mem_alSet {α : Type} {l : List (String × α)} {k : String} {v : α} {p : String × α}
    (h : p ∈ alSet l k v) : p = (k, v) ∨ p ∈ l := by
  induction l with
  | nil => simpa [alSet] using h
  | cons q rest ih =>
    simp only [alSet] at h
    by_cases hq : q.1 = k
    · rw [if_pos hq] at h
      rcases List.mem_cons.mp h with h | h
      · exact Or.inl h
      · exact Or.inr (List.mem_cons_of_mem _ h)
    · rw [if_neg hq] at h
      rcases List.mem_cons.mp h with h | h
      · exact Or.inr (h ▸ List.mem_cons_self _ _)
      · rcases ih h with h | h
        · exact Or.inl h
        · exact Or.inr (List.mem_cons_of_mem _ h)

theorem alLookup_mem {α : Type} {l : List (String × α)} {k : String} {v : α}
    (h : alLookup l k = some v) : (k, v) ∈ l := by
  induction l with
  | nil => simp [alLookup] at h
  | cons p rest ih =>
    simp only [alLookup] at h
    by_cases hp : p.1 = k
    · rw [if_pos hp] at h
      obtain rfl : p.2 = v := by simpa using h
      subst hp
      exact List.mem_cons_self p rest
    · rw [if_neg hp] at h
      exact List.mem_cons_of_mem _ (ih h)

theorem nodup_listInsert (l : List String) (x : String) (h : l.Nodup) :
    (listInsert l x).Nodup := by
  unfold listInsert
  split
  · exact h
  · rename_i hc
    simp only [List.contains, List.elem_eq_mem, decide_eq_true_eq] at hc
    simp [List.nodup_append, h, hc]

theorem eraseDupsKeepFirstAux_eq_self : ∀ (n : Nat) (l : List String), l.length < n →
    l.Nodup → eraseDupsKeepFirstAux n l = l
  | _ + 1, [], _, _ => rfl
  | n + 1, x :: xs, h, hnd => by
    rw [eraseDupsKeepFirstAux]
    have hx : x ∉ xs := (List.nodup_cons.mp hnd).1
    have hf : xs.filter (fun y => y ≠ x) = xs :=
      List.filter_eq_self.mpr fun y hy => by
        simp only [ne_eq, decide_eq_true_eq]
        exact fun hyx => hx (hyx ▸ hy)
    rw [hf]
    rw [eraseDupsKeepFirstAux_eq_self n xs (by simpa using h) (List.nodup_cons.mp hnd).2]

theorem eraseDupsKeepFirst_eq_self (l : List String) (h : l.Nodup) :
    eraseDupsKeepFirst l = l :=
  eraseDupsKeepFirstAux_eq_self (l.length + 1) l (Nat.lt_succ_self _) h

/-! ## Well-formedness of reachable index states

Every state reachable through `indexMemory` keys each entry by its own id,
has duplicate-free key lists in all three maps, and duplicate-free posting
sets (JavaScript `Map`/`Set` guarantee exactly this). -/

def WFState (s : SemanticSearchState) : Prop :=
  (∀ p ∈ s.memoryIndex, p.2.id = p.1) ∧
  (s.memoryIndex.map Prod.fst).Nodup ∧
  (s.keywordInvertedIndex.map Prod.fst).Nodup ∧
  (s.entityIndex.map Prod.fst).Nodup ∧
  (∀ pr ∈ s.keywordInvertedIndex, pr.2.Nodup) ∧
  (∀ pr ∈ s.entityIndex, pr.2.Nodup)

theorem addTermsToIdx_wf (id : String) (terms : List String) :
    ∀ (idx : List (String × List String)), (idx.map Prod.fst).Nodup →
    (∀ pr ∈ idx, pr.2.Nodup) →
    ((addTermsToIdx idx id terms).map Prod.fst).Nodup ∧
    (∀ pr ∈ addTermsToIdx idx id terms, pr.2.Nodup) := by
  induction terms with
  | nil => intro idx h1 h2; exact ⟨h1, h2⟩
  | cons t rest ih =>
    intro idx h1 h2
    simp only [addTermsToIdx, List.foldl_cons]
    have step :
        ∀ idx' : List (String × List String),
          (idx' = alSet idx (strToLower t) [id] ∧ alLookup idx (strToLower t) = none) ∨
          (∃ ids, idx' = alSet idx (strToLower t) (listInsert ids id) ∧
            alLookup idx (strToLower t) = some ids) →
          (idx'.map Prod.fst).Nodup ∧ ∀ pr ∈ idx', pr.2.Nodup := by
      rintro idx' (⟨rfl, _⟩ | ⟨ids, rfl, hids⟩)
      · refine ⟨nodup_map_fst_alSet _ _ _ h1, fun pr hpr => ?_⟩
        rcases mem_alSet hpr with h | h
        · subst h; simp
        · exact h2 _ h
      · refine ⟨nodup_map_fst_alSet _ _ _ h1, fun pr hpr => ?_⟩
        rcases mem_alSet hpr with h | h
        · subst h
          exact nodup_listInsert _ _ (h2 _ (alLookup_mem hids))
        · exact h2 _ h
    rcases hl : alLookup idx (strToLower t) with _ | ids
    · have h' := step (alSet idx (strToLower t) [id]) (Or.inl ⟨rfl, hl⟩)
      have := ih (alSet idx (strToLower t) [id]) h'.1 h'.2
      simpa [addTermsToIdx, hl] using this
    · have h' := step (alSet idx (strToLower t) (listInsert ids id)) (Or.inr ⟨ids, rfl, hl⟩)
      have := ih (alSet idx (strToLower t) (listInsert ids id)) h'.1 h'.2
      simpa [addTermsToIdx, hl] using this

theorem WFState_empty : WFState emptySearchState := by
  refine ⟨?_, ?_, ?_, ?_, ?_, ?_⟩ <;> simp [emptySearchState]

theorem WFState_indexMemory (s : SemanticSearchState) (id content : String)
    (md : List (String × MVal)) (src : String) (now : Int) (h : WFState s) :
    WFState (indexMemory s id content md src now) := by
  obtain ⟨h1, h2, h3, h4, h5, h6⟩ := h
  have hk := addTermsToIdx_wf id (extractKeywords content) s.keywordInvertedIndex h3 h5
  have he := addTermsToIdx_wf id (extractEntities content) s.entityIndex h4 h6
  refine ⟨?_, ?_, hk.1, he.1, hk.2, he.2⟩
  · intro p hp
    rcases mem_alSet hp with hpe | hpe
    · subst hpe; rfl
    · exact h1 _ hpe
  · exact nodup_map_fst_alSet _ _ _ h2

theorem WFState_buildIndex_aux :
    ∀ (calls : List IndexCall) (s : SemanticSearchState), WFState s →
      WFState (calls.foldl
        (fun s c => indexMemory s c.id c.content c.metadata c.source c.now) s) := by
  intro calls
  induction calls with
  | nil => intro s h; exact h
  | cons c rest ih =>
    intro s h
    exact ih _ (WFState_indexMemory s c.id c.content c.metadata c.source c.now h)

theorem WFState_buildIndex (calls : List IndexCall) : WFState (buildIndex calls) :=
  WFState_buildIndex_aux calls emptySearchState WFState_empty

/-! ## The export / import round trip restores the state exactly -/

theorem foldl_alSet_memories :
    ∀ (l acc : List (String × MemoryIndex)), (∀ p ∈ l, p.2.id = p.1) →
      ((acc ++ l).map Prod.fst).Nodup →
      (l.map Prod.snd).foldl (fun a m => alSet a m.id m) acc = acc ++ l := by
  intro l
  induction l with
  | nil => intro acc _ _; simp
  | cons p rest ih =>
    intro acc hid hnd
    have hpid : p.2.id = p.1 := hid p (List.mem_cons_self _ _)
    have hnotin : p.1 ∉ acc.map Prod.fst := by
      simp only [List.map_append, List.nodup_append] at hnd
      intro hmem
      exact hnd.2.2 hmem (by simp)
    simp only [List.map_cons, List.foldl_cons, hpid]
    rw [alSet_of_not_mem_keys acc p.1 p.2 hnotin]
    have : acc ++ [(p.1, p.2)] = acc ++ [p] := by simp
    rw [this]
    rw [ih (acc ++ [p]) (fun q hq => hid q (List.mem_cons_of_mem _ hq))
      (by simpa using hnd)]
    simp

theorem foldl_alSet_postings :
    ∀ (l acc : List (String × List String)), (∀ pr ∈ l, pr.2.Nodup) →
      ((acc ++ l).map Prod.fst).Nodup →
      l.foldl (fun a pr => alSet a pr.1 (eraseDupsKeepFirst pr.2)) acc = acc ++ l := by
  intro l
  induction l with
  | nil => intro acc _ _; simp
  | cons p rest ih =>
    intro acc hval hnd
    have hp : eraseDupsKeepFirst p.2 = p.2 :=
      eraseDupsKeepFirst_eq_self p.2 (hval p (List.mem_cons_self _ _))
    have hnotin : p.1 ∉ acc.map Prod.fst := by
      simp only [List.map_append, List.nodup_append] at hnd
      intro hmem
      exact hnd.2.2 hmem (by simp)
    simp only [List.foldl_cons, hp]
    rw [alSet_of_not_mem_keys acc p.1 p.2 hnotin]
    have : acc ++ [(p.1, p.2)] = acc ++ [p] := by simp
    rw [this]
    rw [ih (acc ++ [p]) (fun q hq => hval q (List.mem_cons_of_mem _ hq))
      (by simpa using hnd)]
    simp

theorem importIndex_exportIndex (s : SemanticSearchState) (t : Int) (h : WFState s) :
    importIndex (exportIndex s t) = s := by
  obtain ⟨h1, h2, h3, h4, h5, h6⟩ := h
  obtain ⟨m, ki, ei⟩ := s
  simp only [importIndex, exportIndex, SemanticSearchState.mk.injEq]
  refine ⟨?_, ?_, ?_⟩
  · have := foldl_alSet_memories m [] h1 (by simpa using h2)
    simpa using this
  · have := foldl_alSet_postings ki [] h5 (by simpa using h3)
    simpa using this
  · have := foldl_alSet_postings ei [] h6 (by simpa using h4)
    simpa using this

/--
C1.  For every sequence of `indexMemory` calls building an index, exporting
the index and importing the snapshot into a fresh instance restores the
entry map and both posting maps exactly (including iteration order), so
`search` returns identical results — same ids, same order, and scores that
are exactly equal in the real-number model of the floating-point
arithmetic — for every query, option set, and query time.
-/
theorem search_roundtrip_importIndex_exportIndex (calls : List IndexCall) (q : String)
    (opts : SearchOptions) (now texport : Int) :
    search (importIndex (exportIndex (buildIndex calls) texport)) q opts now =
      search (buildIndex calls) q opts now := by
  rw [importIndex_exportIndex _ _ (WFState_buildIndex calls)]

/-! ## Lookup characterizations for the map operations -/

theorem alLookup_alSet {α : Type} (l : List (String × α)) (k : String) (v : α) (t : String) :
    alLookup (alSet l k v) t = if t = k then some v else alLookup l t := by
  induction l with
  | nil =>
    simp only [alSet, alLookup]
    by_cases h : t = k
    · simp [h]
    · simp [h, Ne.symm h]
  | cons p rest ih =>
    simp only [alSet]
    by_cases hp : p.1 = k
    · simp only [if_pos hp, alLookup]
      by_cases ht : t = k
      · simp [ht]
      · rw [if_neg fun hh => ht hh.symm, if_neg ht, if_neg (hp ▸ fun hh => ht hh.symm)]
    · simp only [if_neg hp, alLookup]
      by_cases hpt : p.1 = t
      · rw [if_pos hpt, if_neg fun hh => hp (hpt.trans hh), if_pos hpt]
      · rw [if_neg hpt, ih, if_neg hpt]

theorem alLookup_alErase_ne {α : Type} (l : List (String × α)) (k t : String) (h : t ≠ k) :
    alLookup (alErase l k) t = alLookup l t := by
  induction l with
  | nil => rfl
  | cons p rest ih =>
    simp only [alErase]
    by_cases hp : p.1 = k
    · rw [if_pos hp]
      simp only [alLookup]
      rw [if_neg (hp ▸ fun hh => h hh.symm)]
    · rw [if_neg hp]
      simp only [alLookup]
      rw [ih]

theorem alErase_sublist {α : Type} (l : List (String × α)) (k : String) :
    (alErase l k).Sublist l := by
  induction l with
  | nil => simp [alErase]
  | cons p rest ih =>
    simp only [alErase]
    by_cases hp : p.1 = k
    · rw [if_pos hp]; exact List.sublist_cons_self p rest
    · rw [if_neg hp]; exact ih.cons₂ p

theorem alLookup_alErase_self {α : Type} (l : List (String × α)) (k : String)
    (hnd : (l.map Prod.fst).Nodup) : alLookup (alErase l k) k = none := by
  induction l with
  | nil => rfl
  | cons p rest ih =>
    simp only [List.map_cons, List.nodup_cons] at hnd
    simp only [alErase]
    by_cases hp : p.1 = k
    · rw [if_pos hp]
      subst hp
      rcases hl : alLookup rest p.1 with _ | v
      · rfl
      · exact absurd (List.mem_map.mpr ⟨(p.1, v), alLookup_mem hl, rfl⟩) hnd.1
    · rw [if_neg hp]
      simp only [alLookup]
      rw [if_neg hp, ih hnd.2]

theorem alLookup_none_of_not_mem_keys {α : Type} {l : List (String × α)} {k : String}
    (h : k ∉ l.map Prod.fst) : alLookup l k = none := by
  induction l with
  | nil => rfl
  | cons p rest ih =>
    simp only [List.map_cons, List.mem_cons] at h
    push_neg at h
    simp only [alLookup]
    rw [if_neg fun hh => h.1 hh.symm]
    exact ih h.2

/-- Well-formedness of one posting map taken alone. -/
def IdxWF (idx : List (String × List String)) : Prop :=
  (idx.map Prod.fst).Nodup ∧ ∀ t ids, alLookup idx t = some ids → ids.Nodup

/-! ## Behaviour of posting removal -/

theorem removeTermFromIdx_wf (idx : List (String × List String)) (key id : String)
    (h : IdxWF idx) : IdxWF (removeTermFromIdx idx key id) := by
  obtain ⟨hnd, hval⟩ := h
  unfold removeTermFromIdx
  rcases hl : alLookup idx key with _ | ids
  · exact ⟨hnd, hval⟩
  · simp only
    split
    · exact ⟨((alErase_sublist idx key).map Prod.fst).nodup hnd, fun t ids' h' => by
        by_cases ht : t = key
        · subst ht
          rw [alLookup_alErase_self idx t hnd] at h'
          cases h'
        · rw [alLookup_alErase_ne idx key t ht] at h'
          exact hval t ids' h'⟩
    · refine ⟨nodup_map_fst_alSet _ _ _ hnd, fun t ids' h' => ?_⟩
      rw [alLookup_alSet] at h'
      by_cases ht : t = key
      · rw [if_pos ht] at h'
        obtain rfl : ids.erase id = ids' := by simpa using h'
        exact (hval key ids hl).erase id
      · rw [if_neg ht] at h'
        exact hval t ids' h'

theorem removeTermFromIdx_lookup_ne (idx : List (String × List String)) (key id t : String)
    (ht : t ≠ key) :
    alLookup (removeTermFromIdx idx key id) t = alLookup idx t := by
  unfold removeTermFromIdx
  rcases alLookup idx key with _ | ids
  · rfl
  · simp only
    split
    · exact alLookup_alErase_ne idx key t ht
    · rw [alLookup_alSet, if_neg ht]

theorem removeTermFromIdx_lookup_self (idx : List (String × List String)) (key id : String)
    (hnd : (idx.map Prod.fst).Nodup) :
    alLookup (removeTermFromIdx idx key id) key = none ∨
      (∃ ids, alLookup idx key = some ids ∧
        alLookup (removeTermFromIdx idx key id) key = some (ids.erase id) ∧
        ids.erase id ≠ []) := by
  unfold removeTermFromIdx
  rcases hl : alLookup idx key with _ | ids
  · exact Or.inl hl
  · simp only
    split
    · exact Or.inl (alLookup_alErase_self idx key hnd)
    · rename_i hne
      refine Or.inr ⟨ids, rfl, ?_, by simpa using hne⟩
      rw [alLookup_alSet, if_pos rfl]

/--
The specification of `removeFromInvertedIndexes` on one posting map: it
preserves well-formedness, leaves postings of unrelated terms untouched,
only ever shrinks a posting set (pruning it if it becomes empty), and
removes `id` from the posting set of every processed term.
-/
theorem removeTermsFromIdx_spec (id : String) :
    ∀ (terms : List String) (idx : List (String × List String)), IdxWF idx →
      IdxWF (removeTermsFromIdx idx id terms) ∧
      (∀ t, t ∉ terms.map strToLower →
        alLookup (removeTermsFromIdx idx id terms) t = alLookup idx t) ∧
      (∀ t ids', alLookup (removeTermsFromIdx idx id terms) t = some ids' →
        ∃ ids, alLookup idx t = some ids ∧
          (ids' = ids ∨ (ids' = ids.erase id ∧ ids' ≠ []))) ∧
      (∀ t, t ∈ terms.map strToLower →
        ∀ ids', alLookup (removeTermsFromIdx idx id terms) t = some ids' → id ∉ ids') := by
  intro terms
  induction terms with
  | nil =>
    intro idx h
    refine ⟨h, fun t _ => rfl, fun t ids' h' => ⟨ids', h', Or.inl rfl⟩, fun t ht => by simp at ht⟩
  | cons t0 rest ih =>
    intro idx h
    have hstep := removeTermFromIdx_wf idx (strToLower t0) id h
    have hrec := ih (removeTermFromIdx idx (strToLower t0) id) hstep
    have hfold : removeTermsFromIdx idx id (t0 :: rest) =
        removeTermsFromIdx (removeTermFromIdx idx (strToLower t0) id) id rest := by
      simp [removeTermsFromIdx]
    refine ⟨hfold ▸ hrec.1, ?_, ?_, ?_⟩
    · intro t ht
      simp only [List.map_cons, List.mem_cons] at ht
      push_neg at ht
      rw [hfold, hrec.2.1 t ht.2, removeTermFromIdx_lookup_ne idx (strToLower t0) id t ht.1]
    · intro t ids' h'
      rw [hfold] at h'
      obtain ⟨ids1, hids1, hcase1⟩ := hrec.2.2.1 t ids' h'
      by_cases ht : t = (strToLower t0)
      · rw [ht] at hids1 ⊢
        rcases removeTermFromIdx_lookup_self idx (strToLower t0) id h.1 with
          hnone | ⟨ids, hids, hsome, hne⟩
        · rw [hnone] at hids1; cases hids1
        · rw [hsome] at hids1
          obtain rfl : ids.erase id = ids1 := by simpa using hids1
          refine ⟨ids, hids, Or.inr ⟨?_, ?_⟩⟩
          · rcases hcase1 with rfl | ⟨rfl, _⟩
            · rfl
            · rw [List.erase_of_not_mem ((h.2 (strToLower t0) ids hids).not_mem_erase)]
          · rcases hcase1 with rfl | ⟨rfl, hne'⟩
            · exact hne
            · exact hne'
      · rw [removeTermFromIdx_lookup_ne idx (strToLower t0) id t ht] at hids1
        exact ⟨ids1, hids1, hcase1⟩
    · intro t ht ids' h'
      rw [hfold] at h'
      simp only [List.map_cons, List.mem_cons] at ht
      by_cases ht0 : t = (strToLower t0)
      · obtain ⟨ids1, hids1, hcase1⟩ := hrec.2.2.1 t ids' h'
        rw [ht0] at hids1
        rcases removeTermFromIdx_lookup_self idx (strToLower t0) id h.1 with
          hnone | ⟨ids, hids, hsome, hne⟩
        · rw [hnone] at hids1; cases hids1
        · rw [hsome] at hids1
          obtain rfl : ids.erase id = ids1 := by simpa using hids1
          have hnotin : id ∉ ids.erase id := (h.2 (strToLower t0) ids hids).not_mem_erase
          rcases hcase1 with rfl | ⟨rfl, _⟩
          · exact hnotin
          · intro hc
            exact hnotin (List.mem_of_mem_erase hc)
      · rcases ht with ht | ht
        · exact absurd ht ht0
        · exact hrec.2.2.2 t ht ids' h'

/-! ## Behaviour of posting insertion -/

theorem mem_listInsert {l : List String} {x i : String} (h : i ∈ listInsert l x) :
    i ∈ l ∨ i = x := by
  unfold listInsert at h
  split at h
  · exact Or.inl h
  · rcases List.mem_append.mp h with h | h
    · exact Or.inl h
    · exact Or.inr (by simpa using h)

theorem listInsert_ne_nil (l : List String) (x : String) : listInsert l x ≠ [] := by
  unfold listInsert
  split
  · rename_i hc
    intro hnil
    subst hnil
    simp [List.contains] at hc
  · simp

theorem addTermsToIdx_spec (id : String) :
    ∀ (terms : List String) (idx : List (String × List String)),
      (∀ t, t ∉ terms.map strToLower →
        alLookup (addTermsToIdx idx id terms) t = alLookup idx t) ∧
      (∀ t ids', alLookup (addTermsToIdx idx id terms) t = some ids' →
        ∀ i ∈ ids', i = id ∨ ∃ ids, alLookup idx t = some ids ∧ i ∈ ids) ∧
      (∀ t ids', alLookup (addTermsToIdx idx id terms) t = some ids' →
        ids' ≠ [] ∨ alLookup idx t = some ids') := by
  intro terms
  induction terms with
  | nil =>
    intro idx
    exact ⟨fun t _ => rfl, fun t ids' h' i hi => Or.inr ⟨ids', h', hi⟩,
      fun t ids' h' => Or.inr h'⟩
  | cons t0 rest ih =>
    intro idx
    have hfold : ∀ idx1,
        idx1 = (match alLookup idx (strToLower t0) with
                | none => alSet idx (strToLower t0) [id]
                | some ids => alSet idx (strToLower t0) (listInsert ids id)) →
        addTermsToIdx idx id (t0 :: rest) = addTermsToIdx idx1 id rest := by
      intro idx1 hidx1
      subst hidx1
      simp only [addTermsToIdx, List.foldl_cons]
    rcases hl : alLookup idx (strToLower t0) with _ | ids0
    · have heq := hfold (alSet idx (strToLower t0) [id]) (by rw [hl])
      have hlook : ∀ t, alLookup (alSet idx (strToLower t0) [id]) t =
          if t = (strToLower t0) then some [id] else alLookup idx t := fun t =>
        alLookup_alSet idx (strToLower t0) [id] t
      refine ⟨?_, ?_, ?_⟩
      · intro t ht
        simp only [List.map_cons, List.mem_cons] at ht
        push_neg at ht
        rw [heq, (ih _).1 t ht.2, hlook t, if_neg ht.1]
      · intro t ids' h' i hi
        rw [heq] at h'
        rcases (ih _).2.1 t ids' h' i hi with hid | ⟨ids1, hids1, hi1⟩
        · exact Or.inl hid
        · rw [hlook t] at hids1
          by_cases ht : t = (strToLower t0)
          · rw [if_pos ht] at hids1
            obtain rfl : [id] = ids1 := by simpa using hids1
            exact Or.inl (by simpa using hi1)
          · rw [if_neg ht] at hids1
            exact Or.inr ⟨ids1, hids1, hi1⟩
      · intro t ids' h'
        rw [heq] at h'
        rcases (ih _).2.2 t ids' h' with hne | hsame
        · exact Or.inl hne
        · rw [hlook t] at hsame
          by_cases ht : t = (strToLower t0)
          · rw [if_pos ht] at hsame
            obtain rfl : [id] = ids' := by simpa using hsame
            exact Or.inl (by simp)
          · rw [if_neg ht] at hsame
            exact Or.inr hsame
    · have heq := hfold (alSet idx (strToLower t0) (listInsert ids0 id)) (by rw [hl])
      have hlook : ∀ t, alLookup (alSet idx (strToLower t0) (listInsert ids0 id)) t =
          if t = (strToLower t0) then some (listInsert ids0 id) else alLookup idx t := fun t =>
        alLookup_alSet idx (strToLower t0) (listInsert ids0 id) t
      refine ⟨?_, ?_, ?_⟩
      · intro t ht
        simp only [List.map_cons, List.mem_cons] at ht
        push_neg at ht
        rw [heq, (ih _).1 t ht.2, hlook t, if_neg ht.1]
      · intro t ids' h' i hi
        rw [heq] at h'
        rcases (ih _).2.1 t ids' h' i hi with hid | ⟨ids1, hids1, hi1⟩
        · exact Or.inl hid
        · rw [hlook t] at hids1
          by_cases ht : t = (strToLower t0)
          · rw [if_pos ht] at hids1
            obtain rfl : listInsert ids0 id = ids1 := by simpa using hids1
            rcases mem_listInsert hi1 with hmem | hid
            · exact Or.inr ⟨ids0, ht ▸ hl, hmem⟩
            · exact Or.inl hid
          · rw [if_neg ht] at hids1
            exact Or.inr ⟨ids1, hids1, hi1⟩
      · intro t ids' h'
        rw [heq] at h'
        rcases (ih _).2.2 t ids' h' with hne | hsame
        · exact Or.inl hne
        · rw [hlook t] at hsame
          by_cases ht : t = (strToLower t0)
          · rw [if_pos ht] at hsame
            obtain rfl : listInsert ids0 id = ids' := by simpa using hsame
            exact Or.inl (listInsert_ne_nil ids0 id)
          · rw [if_neg ht] at hsame
            exact Or.inr hsame

/-! ## The no-stale-postings invariant -/

/-- Every stored entry is keyed by its id and carries exactly the keyword and
entity lists extracted from its current content. -/
def ExtractInv (s : SemanticSearchState) : Prop :=
  ∀ p ∈ s.memoryIndex, p.2.id = p.1 ∧ p.2.keywords = extractKeywords p.2.content ∧
    p.2.entities = extractEntities p.2.content

/-- Every posting set is nonempty (empty sets are pruned) and an id appears
in the posting set of a term only if that term is among the (lowercased)
terms of the id's current entry. -/
def PostingInv (mem : List (String × MemoryIndex)) (idx : List (String × List String))
    (terms : MemoryIndex → List String) : Prop :=
  ∀ t ids, alLookup idx t = some ids → ids ≠ [] ∧
    ∀ i ∈ ids, ∃ e, alLookup mem i = some e ∧ t ∈ (terms e).map strToLower

def SemInv (s : SemanticSearchState) : Prop :=
  ExtractInv s ∧ (s.memoryIndex.map Prod.fst).Nodup ∧
  IdxWF s.keywordInvertedIndex ∧ IdxWF s.entityIndex ∧
  PostingInv s.memoryIndex s.keywordInvertedIndex (fun e => e.keywords) ∧
  PostingInv s.memoryIndex s.entityIndex (fun e => e.entities)

/--
After `removeFromInvertedIndexes` runs for an entry, the removed id is
posted nowhere: processed terms lose it explicitly, and by `PostingInv` it
never appeared under any other term.
-/
theorem removeTermsFromIdx_noId (idx : List (String × List String)) (id : String)
    (terms : List String) (hwf : IdxWF idx)
    (hcov : ∀ t ids, alLookup idx t = some ids → id ∈ ids → t ∈ terms.map strToLower) :
    ∀ t ids', alLookup (removeTermsFromIdx idx id terms) t = some ids' → id ∉ ids' := by
  intro t ids' h' hin
  obtain ⟨ids, hids, hcase⟩ := (removeTermsFromIdx_spec id terms idx hwf).2.2.1 t ids' h'
  rcases hcase with rfl | ⟨rfl, _⟩
  · exact (removeTermsFromIdx_spec id terms idx hwf).2.2.2 t (hcov t ids' hids hin) ids' h' hin
  · exact (hwf.2 t ids hids).not_mem_erase hin

theorem alLookup_eq_of_mem {α : Type} {l : List (String × α)} {k : String} {v : α}
    (hnd : (l.map Prod.fst).Nodup) (h : (k, v) ∈ l) : alLookup l k = some v := by
  induction l with
  | nil => simp at h
  | cons p rest ih =>
    simp only [List.map_cons, List.nodup_cons] at hnd
    rcases List.mem_cons.mp h with h | h
    · subst h
      simp [alLookup]
    · have hk : p.1 ≠ k := by
        intro hh
        exact hnd.1 (hh ▸ List.mem_map.mpr ⟨(k, v), h, rfl⟩)
      simp only [alLookup]
      rw [if_neg hk]
      exact ih hnd.2 h

theorem mem_of_alErase {α : Type} {l : List (String × α)} {k : String} {p : String × α}
    (h : p ∈ alErase l k) : p ∈ l :=
  (alErase_sublist l k).subset h

/-- `removeMemory` preserves the no-stale-postings invariant. -/
theorem SemInv_removeMemory (s : SemanticSearchState) (id : String) (h : SemInv s) :
    SemInv (removeMemory s id).2 := by
  obtain ⟨hx, hmnd, hkwf, hewf, hkpost, hepost⟩ := h
  unfold removeMemory
  rcases hl : alLookup s.memoryIndex id with _ | e
  · exact ⟨hx, hmnd, hkwf, hewf, hkpost, hepost⟩
  · simp only [removeFromInvertedIndexes]
    have hkcov : ∀ t ids, alLookup s.keywordInvertedIndex t = some ids → id ∈ ids →
        t ∈ e.keywords.map strToLower := by
      intro t ids hids hin
      obtain ⟨e', he', ht⟩ := (hkpost t ids hids).2 id hin
      rw [hl] at he'
      obtain rfl : e = e' := by simpa using he'
      exact ht
    have hecov : ∀ t ids, alLookup s.entityIndex t = some ids → id ∈ ids →
        t ∈ e.entities.map strToLower := by
      intro t ids hids hin
      obtain ⟨e', he', ht⟩ := (hepost t ids hids).2 id hin
      rw [hl] at he'
      obtain rfl : e = e' := by simpa using he'
      exact ht
    have hkno := removeTermsFromIdx_noId s.keywordInvertedIndex id e.keywords hkwf hkcov
    have heno := removeTermsFromIdx_noId s.entityIndex id e.entities hewf hecov
    have hkspec := removeTermsFromIdx_spec id e.keywords s.keywordInvertedIndex hkwf
    have hespec := removeTermsFromIdx_spec id e.entities s.entityIndex hewf
    refine ⟨?_, ?_, hkspec.1, hespec.1, ?_, ?_⟩
    · intro p hp
      exact hx p (mem_of_alErase hp)
    · exact ((alErase_sublist s.memoryIndex id).map Prod.fst).nodup hmnd
    · intro t ids' h'
      obtain ⟨ids, hids, hcase⟩ := hkspec.2.2.1 t ids' h'
      refine ⟨?_, ?_⟩
      · rcases hcase with rfl | ⟨rfl, hne⟩
        · exact (hkpost t ids' hids).1
        · exact hne
      · intro i hi
        have hiids : i ∈ ids := by
          rcases hcase with rfl | ⟨rfl, _⟩
          · exact hi
          · exact List.mem_of_mem_erase hi
        obtain ⟨e', he', ht⟩ := (hkpost t ids hids).2 i hiids
        have hine : i ≠ id := fun hh => hkno t ids' h' (hh ▸ hi)
        refine ⟨e', ?_, ht⟩
        rw [alLookup_alErase_ne s.memoryIndex id i hine]
        exact he'
    · intro t ids' h'
      obtain ⟨ids, hids, hcase⟩ := hespec.2.2.1 t ids' h'
      refine ⟨?_, ?_⟩
      · rcases hcase with rfl | ⟨rfl, hne⟩
        · exact (hepost t ids' hids).1
        · exact hne
      · intro i hi
        have hiids : i ∈ ids := by
          rcases hcase with rfl | ⟨rfl, _⟩
          · exact hi
          · exact List.mem_of_mem_erase hi
        obtain ⟨e', he', ht⟩ := (hepost t ids hids).2 i hiids
        have hine : i ≠ id := fun hh => heno t ids' h' (hh ▸ hi)
        refine ⟨e', ?_, ht⟩
        rw [alLookup_alErase_ne s.memoryIndex id i hine]
        exact he'

/--
`removeFromInvertedIndexes` applied to the stored term lists of the entry
for `id` preserves the invariant and leaves `id` posted nowhere.
-/
theorem SemInv_removeFromInvertedIndexes (s : SemanticSearchState) (id : String)
    (e : MemoryIndex) (h : SemInv s) (hl : alLookup s.memoryIndex id = some e) :
    SemInv (removeFromInvertedIndexes s id e.keywords e.entities) ∧
    (∀ t ids, alLookup (removeFromInvertedIndexes s id e.keywords e.entities).keywordInvertedIndex
      t = some ids → id ∉ ids) ∧
    (∀ t ids, alLookup (removeFromInvertedIndexes s id e.keywords e.entities).entityIndex
      t = some ids → id ∉ ids) := by
  obtain ⟨hx, hmnd, hkwf, hewf, hkpost, hepost⟩ := h
  have hkcov : ∀ t ids, alLookup s.keywordInvertedIndex t = some ids → id ∈ ids →
      t ∈ e.keywords.map strToLower := by
    intro t ids hids hin
    obtain ⟨e', he', ht⟩ := (hkpost t ids hids).2 id hin
    rw [hl] at he'
    obtain rfl : e = e' := by simpa using he'
    exact ht
  have hecov : ∀ t ids, alLookup s.entityIndex t = some ids → id ∈ ids →
      t ∈ e.entities.map strToLower := by
    intro t ids hids hin
    obtain ⟨e', he', ht⟩ := (hepost t ids hids).2 id hin
    rw [hl] at he'
    obtain rfl : e = e' := by simpa using he'
    exact ht
  have hkspec := removeTermsFromIdx_spec id e.keywords s.keywordInvertedIndex hkwf
  have hespec := removeTermsFromIdx_spec id e.entities s.entityIndex hewf
  refine ⟨⟨hx, hmnd, hkspec.1, hespec.1, ?_, ?_⟩,
    removeTermsFromIdx_noId s.keywordInvertedIndex id e.keywords hkwf hkcov,
    removeTermsFromIdx_noId s.entityIndex id e.entities hewf hecov⟩
  · intro t ids' h'
    obtain ⟨ids, hids, hcase⟩ := hkspec.2.2.1 t ids' h'
    refine ⟨?_, ?_⟩
    · rcases hcase with rfl | ⟨rfl, hne⟩
      · exact (hkpost t ids' hids).1
      · exact hne
    · intro i hi
      have hiids : i ∈ ids := by
        rcases hcase with rfl | ⟨rfl, _⟩
        · exact hi
        · exact List.mem_of_mem_erase hi
      exact (hkpost t ids hids).2 i hiids
  · intro t ids' h'
    obtain ⟨ids, hids, hcase⟩ := hespec.2.2.1 t ids' h'
    refine ⟨?_, ?_⟩
    · rcases hcase with rfl | ⟨rfl, hne⟩
      · exact (hepost t ids' hids).1
      · exact hne
    · intro i hi
      have hiids : i ∈ ids := by
        rcases hcase with rfl | ⟨rfl, _⟩
        · exact hi
        · exact List.mem_of_mem_erase hi
      exact (hepost t ids hids).2 i hiids

/-- `indexMemory` unfolded to its effect on the three maps. -/
theorem indexMemory_def (s : SemanticSearchState) (id content : String)
    (md : List (String × MVal)) (src : String) (now : Int) :
    indexMemory s id content md src now =
      ⟨alSet s.memoryIndex id
         ⟨id, content, generateSemanticVectors content, extractKeywords content,
          extractEntities content, md, now, src⟩,
       addTermsToIdx s.keywordInvertedIndex id (extractKeywords content),
       addTermsToIdx s.entityIndex id (extractEntities content)⟩ := rfl

/--
`indexMemory` on a state where the id is posted nowhere (a fresh id, or one
whose old postings were just removed) preserves the invariant.
-/
theorem SemInv_indexMemory_fresh (s : SemanticSearchState) (id content : String)
    (md : List (String × MVal)) (src : String) (now : Int) (h : SemInv s)
    (hkno : ∀ t ids, alLookup s.keywordInvertedIndex t = some ids → id ∉ ids)
    (heno : ∀ t ids, alLookup s.entityIndex t = some ids → id ∉ ids) :
    SemInv (indexMemory s id content md src now) := by
  obtain ⟨hx, hmnd, hkwf, hewf, hkpost, hepost⟩ := h
  have hkmem : ∀ pr ∈ s.keywordInvertedIndex, pr.2.Nodup := fun pr hpr =>
    hkwf.2 pr.1 pr.2 (alLookup_eq_of_mem hkwf.1 hpr)
  have hemem : ∀ pr ∈ s.entityIndex, pr.2.Nodup := fun pr hpr =>
    hewf.2 pr.1 pr.2 (alLookup_eq_of_mem hewf.1 hpr)
  have hkwf' := addTermsToIdx_wf id (extractKeywords content) s.keywordInvertedIndex
    hkwf.1 hkmem
  have hewf' := addTermsToIdx_wf id (extractEntities content) s.entityIndex hewf.1 hemem
  have hkadd := addTermsToIdx_spec id (extractKeywords content) s.keywordInvertedIndex
  have headd := addTermsToIdx_spec id (extractEntities content) s.entityIndex
  rw [indexMemory_def]
  refine ⟨?_, nodup_map_fst_alSet _ _ _ hmnd,
    ⟨hkwf'.1, fun t ids h' => hkwf'.2 (t, ids) (alLookup_mem h')⟩,
    ⟨hewf'.1, fun t ids h' => hewf'.2 (t, ids) (alLookup_mem h')⟩, ?_, ?_⟩
  · intro p hp
    rcases mem_alSet hp with hpe | hpe
    · subst hpe
      exact ⟨rfl, rfl, rfl⟩
    · exact hx p hpe
  · intro t ids' h'
    refine ⟨?_, ?_⟩
    · rcases hkadd.2.2 t ids' h' with hne | hsame
      · exact hne
      · exact (hkpost t ids' hsame).1
    · intro i hi
      rcases hkadd.2.1 t ids' h' i hi with hid | ⟨ids, hids, hiids⟩
      · subst hid
        refine ⟨⟨i, content, generateSemanticVectors content, extractKeywords content,
          extractEntities content, md, now, src⟩, ?_, ?_⟩
        · rw [alLookup_alSet, if_pos rfl]
        · show t ∈ (extractKeywords content).map strToLower
          by_contra hnt
          rw [hkadd.1 t hnt] at h'
          exact hkno t ids' h' hi
      · have hine : i ≠ id := fun hh => hkno t ids hids (hh ▸ hiids)
        obtain ⟨e', he', ht⟩ := (hkpost t ids hids).2 i hiids
        refine ⟨e', ?_, ht⟩
        rw [alLookup_alSet, if_neg hine]
        exact he'
  · intro t ids' h'
    refine ⟨?_, ?_⟩
    · rcases headd.2.2 t ids' h' with hne | hsame
      · exact hne
      · exact (hepost t ids' hsame).1
    · intro i hi
      rcases headd.2.1 t ids' h' i hi with hid | ⟨ids, hids, hiids⟩
      · subst hid
        refine ⟨⟨i, content, generateSemanticVectors content, extractKeywords content,
          extractEntities content, md, now, src⟩, ?_, ?_⟩
        · rw [alLookup_alSet, if_pos rfl]
        · show t ∈ (extractEntities content).map strToLower
          by_contra hnt
          rw [headd.1 t hnt] at h'
          exact heno t ids' h' hi
      · have hine : i ≠ id := fun hh => heno t ids hids (hh ▸ hiids)
        obtain ⟨e', he', ht⟩ := (hepost t ids hids).2 i hiids
        refine ⟨e', ?_, ht⟩
        rw [alLookup_alSet, if_neg hine]
        exact he'

theorem SemInv_empty : SemInv emptySearchState := by
  refine ⟨?_, ?_, ⟨?_, ?_⟩, ⟨?_, ?_⟩, ?_, ?_⟩ <;>
    simp [emptySearchState, ExtractInv, PostingInv, alLookup]

/--
C2.  Starting from any state satisfying the no-stale-postings invariant
(`SemInv`, which holds for every reachable state): after a successful
`updateMemory(id, newContent)` the invariant still holds — in particular
every posting set is nonempty (empty sets were pruned) and `id` appears in
the posting set of a keyword or entity term only if that term occurs among
the terms extracted from `newContent` — and after `removeMemory(id)` the
invariant still holds and no keyword or entity posting set references `id`
at all.
-/
theorem noStalePostings_after_update_or_remove (s : SemanticSearchState) (hInv : SemInv s)
    (id newContent : String) (md : List (String × MVal)) (now : Int) :
    (∀ s', updateMemory s id newContent md now = Except.ok s' →
      SemInv s' ∧
      (∀ t ids, alLookup s'.keywordInvertedIndex t = some ids → id ∈ ids →
        t ∈ (extractKeywords newContent).map strToLower) ∧
      (∀ t ids, alLookup s'.entityIndex t = some ids → id ∈ ids →
        t ∈ (extractEntities newContent).map strToLower)) ∧
    SemInv (removeMemory s id).2 ∧
    (∀ t ids, alLookup (removeMemory s id).2.keywordInvertedIndex t = some ids → id ∉ ids) ∧
    (∀ t ids, alLookup (removeMemory s id).2.entityIndex t = some ids → id ∉ ids) := by
  constructor
  · intro s' hok
    unfold updateMemory at hok
    rcases hl : alLookup s.memoryIndex id with _ | e
    · rw [hl] at hok
      cases hok
    · rw [hl] at hok
      obtain rfl : indexMemory (removeFromInvertedIndexes s id e.keywords e.entities) id
          newContent
          (alSet (md.foldl (fun acc p => alSet acc p.1 p.2) e.metadata) "lastModified"
            (MVal.n now)) e.source now = s' := by
        simpa using hok
      obtain ⟨hinv1, hkno1, heno1⟩ := SemInv_removeFromInvertedIndexes s id e hInv hl
      have hinv' := SemInv_indexMemory_fresh
        (removeFromInvertedIndexes s id e.keywords e.entities) id newContent
        (alSet (md.foldl (fun acc p => alSet acc p.1 p.2) e.metadata) "lastModified"
          (MVal.n now)) e.source now hinv1 hkno1 heno1
      refine ⟨hinv', ?_, ?_⟩
      · intro t ids hlook hin
        obtain ⟨e', he', ht⟩ := (hinv'.2.2.2.2.1 t ids hlook).2 id hin
        rw [indexMemory_def] at he'
        simp only [alLookup_alSet, if_pos rfl] at he'
        obtain rfl : _ = e' := by exact (Option.some.injEq _ _).mp he'
        exact ht
      · intro t ids hlook hin
        obtain ⟨e', he', ht⟩ := (hinv'.2.2.2.2.2 t ids hlook).2 id hin
        rw [indexMemory_def] at he'
        simp only [alLookup_alSet, if_pos rfl] at he'
        obtain rfl : _ = e' := by exact (Option.some.injEq _ _).mp he'
        exact ht
  · have hsem := SemInv_removeMemory s id hInv
    refine ⟨hsem, ?_, ?_⟩
    · intro t ids hids hin
      rcases hl : alLookup s.memoryIndex id with _ | e
      · have hrm : removeMemory s id = (false, s) := by
          unfold removeMemory
          rw [hl]
        rw [hrm] at hids
        obtain ⟨e', he', _⟩ := (hInv.2.2.2.2.1 t ids hids).2 id hin
        rw [hl] at he'
        cases he'
      · have hrm : (removeMemory s id).2.keywordInvertedIndex =
            (removeFromInvertedIndexes s id e.keywords e.entities).keywordInvertedIndex := by
          unfold removeMemory
          rw [hl]
        rw [hrm] at hids
        exact (SemInv_removeFromInvertedIndexes s id e hInv hl).2.1 t ids hids hin
    · intro t ids hids hin
      rcases hl : alLookup s.memoryIndex id with _ | e
      · have hrm : removeMemory s id = (false, s) := by
          unfold removeMemory
          rw [hl]
        rw [hrm] at hids
        obtain ⟨e', he', _⟩ := (hInv.2.2.2.2.2 t ids hids).2 id hin
        rw [hl] at he'
        cases he'
      · have hrm : (removeMemory s id).2.entityIndex =
            (removeFromInvertedIndexes s id e.keywords e.entities).entityIndex := by
          unfold removeMemory
          rw [hl]
        rw [hrm] at hids
        exact (SemInv_removeFromInvertedIndexes s id e hInv hl).2.2 t ids hids hin

/--
Witness for C2: the invariant hypothesis is discharged at the concrete state
obtained by indexing one memory into a fresh instance, and the theorem is
applied there.
-/
theorem noStalePostings_witness :
    SemInv (indexMemory emptySearchState "m1" "deploy" [] "test" 0) ∧
    SemInv (removeMemory (indexMemory emptySearchState "m1" "deploy" [] "test" 0) "m1").2 := by
  have hinv : SemInv (indexMemory emptySearchState "m1" "deploy" [] "test" 0) :=
    SemInv_indexMemory_fresh emptySearchState "m1" "deploy" [] "test" 0 SemInv_empty
      (fun t ids h => by cases h) (fun t ids h => by cases h)
  exact ⟨hinv,
    (noStalePostings_after_update_or_remove _ hinv "m1" "x" [] 1).2.1⟩

/--
C10.  `removeMemory(id)` returns a boolean rather than throwing: on an id
absent from the index it returns `false` and leaves the state (entry map and
both posting maps) completely unchanged; on a present id it returns `true`,
deletes the entry, removes the id from every keyword and entity posting set,
and leaves every other entry in place.
-/
theorem removeMemory_boolean_semantics (s : SemanticSearchState) (id : String)
    (hInv : SemInv s) :
    (alLookup s.memoryIndex id = none → removeMemory s id = (false, s)) ∧
    (∀ e, alLookup s.memoryIndex id = some e →
      (removeMemory s id).1 = true ∧
      alLookup (removeMemory s id).2.memoryIndex id = none ∧
      (∀ t ids, alLookup (removeMemory s id).2.keywordInvertedIndex t = some ids → id ∉ ids) ∧
      (∀ t ids, alLookup (removeMemory s id).2.entityIndex t = some ids → id ∉ ids) ∧
      (∀ i, i ≠ id → alLookup (removeMemory s id).2.memoryIndex i = alLookup s.memoryIndex i)) := by
  constructor
  · intro h
    unfold removeMemory
    rw [h]
  · intro e he
    have hrm : removeMemory s id =
        (true, ⟨alErase (removeFromInvertedIndexes s id e.keywords e.entities).memoryIndex id,
          (removeFromInvertedIndexes s id e.keywords e.entities).keywordInvertedIndex,
          (removeFromInvertedIndexes s id e.keywords e.entities).entityIndex⟩) := by
      unfold removeMemory
      rw [he]
    obtain ⟨_, hkno1, heno1⟩ := SemInv_removeFromInvertedIndexes s id e hInv he
    rw [hrm]
    refine ⟨rfl, ?_, hkno1, heno1, ?_⟩
    · exact alLookup_alErase_self _ id hInv.2.1
    · intro i hi
      exact alLookup_alErase_ne _ id i hi

/-- Witness for C10: the theorem applied at the one-entry state built by
`indexMemory`, on its present id and on an absent id. -/
theorem removeMemory_boolean_semantics_witness :
    (removeMemory (indexMemory emptySearchState "m1" "deploy" [] "test" 0) "m1").1 = true ∧
    alLookup (removeMemory (indexMemory emptySearchState "m1" "deploy" [] "test" 0)
      "m1").2.memoryIndex "m1" = none ∧
    removeMemory (indexMemory emptySearchState "m1" "deploy" [] "test" 0) "zz" =
      (false, indexMemory emptySearchState "m1" "deploy" [] "test" 0) := by
  have hinv : SemInv (indexMemory emptySearchState "m1" "deploy" [] "test" 0) :=
    SemInv_indexMemory_fresh emptySearchState "m1" "deploy" [] "test" 0 SemInv_empty
      (fun t ids h => by cases h) (fun t ids h => by cases h)
  have hpresent := (removeMemory_boolean_semantics
    (indexMemory emptySearchState "m1" "deploy" [] "test" 0) "m1" hinv).2
    ⟨"m1", "deploy", generateSemanticVectors "deploy", extractKeywords "deploy",
      extractEntities "deploy", [], 0, "test"⟩ rfl
  have habsent := (removeMemory_boolean_semantics
    (indexMemory emptySearchState "m1" "deploy" [] "test" 0) "zz" hinv).1 rfl
  exact ⟨hpresent.1, hpresent.2.1, habsent⟩

/--
Counterexample for C5 as stated: `removeMemory` on an unknown id does not
fail with a not-found error — at the concrete fresh instance and id
"missing" it returns the value `false` and the unchanged state.
-/
theorem removeMemory_unknown_no_error_counterexample :
    removeMemory emptySearchState "missing" = (false, emptySearchState) := rfl

/--
C5 (amended).  On an id not present in the index, `updateMemory` and
`findSimilar` fail with a not-found error (so `updateMemory` never silently
creates an entry), while `removeMemory` — unlike what the claim states —
returns `false` without error and leaves the state unchanged.
-/
theorem unknownId_behaviour (s : SemanticSearchState) (id : String)
    (h : alLookup s.memoryIndex id = none) (newContent : String) (md : List (String × MVal))
    (now : Int) (opts : SearchOptions) :
    updateMemory s id newContent md now = .error (.notFound id) ∧
    findSimilar s id opts now = .error (.notFound id) ∧
    removeMemory s id = (false, s) := by
  refine ⟨?_, ?_, ?_⟩
  · unfold updateMemory
    rw [h]
  · unfold findSimilar
    rw [h]
  · unfold removeMemory
    rw [h]

/-- Witness for C5: the amended theorem applied at the empty state. -/
theorem unknownId_behaviour_witness :
    alLookup emptySearchState.memoryIndex "x" = none ∧
    updateMemory emptySearchState "x" "c" [] 0 = .error (.notFound "x") ∧
    findSimilar emptySearchState "x" ⟨20, 0, true, .all, none⟩ 0 = .error (.notFound "x") ∧
    removeMemory emptySearchState "x" = (false, emptySearchState) := by
  have h := unknownId_behaviour emptySearchState "x" rfl "c" [] 0 ⟨20, 0, true, .all, none⟩
  exact ⟨rfl, h.1, h.2.1, h.2.2⟩

/-! ## Linter score bounds -/

theorem deduction_foldl (issues : List LintIssue) :
    ∀ init : ℚ, issues.foldl (fun s i => s - issueDeduction i.severity) init =
      init - (10 * ((issues.filter fun i => i.severity = .error).length : ℚ)
        + 5 * ((issues.filter fun i => i.severity = .warning).length : ℚ)
        + ((issues.filter fun i => i.severity = .info).length : ℚ)) := by
  induction issues with
  | nil => intro init; simp
  | cons i rest ih =>
    intro init
    simp only [List.foldl_cons]
    rw [ih (init - issueDeduction i.severity)]
    rcases hsev : i.severity <;>
      simp [List.filter_cons, hsev, issueDeduction] <;> ring

/--
C8.  For every input string (including the empty string) the lint score lies
in `[0, 100]`, and it is exactly the clamp to `[0, 100]` of
`100 - 10·errors - 5·warnings - 1·infos + overall·20`, where the issue
counts come from the enabled default rules and `overall` is the mean of the
four quality sub-scores.
-/
theorem lintMemory_score_bounds (content : String) :
    0 ≤ (lintMemory defaultRules content).score ∧
    (lintMemory defaultRules content).score ≤ 100 ∧
    (lintMemory defaultRules content).score =
      max 0 (min 100
        (100 - 10 * (((lintMemory defaultRules content).issues.filter
            fun i => i.severity = .error).length : ℚ)
          - 5 * (((lintMemory defaultRules content).issues.filter
            fun i => i.severity = .warning).length : ℚ)
          - (((lintMemory defaultRules content).issues.filter
            fun i => i.severity = .info).length : ℚ)
          + (calculateQualityMetrics content).overall * 20)) := by
  refine ⟨?_, ?_, ?_⟩
  · exact le_max_left 0 _
  · exact max_le (by norm_num) (min_le_left 100 _)
  · simp only [lintMemory]
    unfold calculateQualityScore
    rw [deduction_foldl]
    ring_nf

/-! ## Facts about the pseudo-embedding and the scoring functions -/

theorem sumSq_nonneg (v : List ℝ) : 0 ≤ sumSq v := by
  refine List.sum_nonneg fun x hx => ?_
  obtain ⟨y, _, rfl⟩ := List.mem_map.mp hx
  exact mul_self_nonneg y

theorem zipWith_mul_self (v : List ℝ) :
    List.zipWith (fun x y => x * y) v v = v.map fun x => x * x := by
  induction v with
  | nil => rfl
  | cons x xs ih => simp [ih]

theorem cosineSimilarity_self (v : List ℝ) (h : sumSq v ≠ 0) :
    cosineSimilarity v v = 1 := by
  unfold cosineSimilarity
  rw [if_neg (by simp)]
  simp only [zipWith_mul_self]
  rw [if_neg (by simpa [sumSq] using h)]
  show sumSq v / (Real.sqrt (sumSq v) * Real.sqrt (sumSq v)) = 1
  rw [Real.mul_self_sqrt (sumSq_nonneg v)]
  exact div_self h

theorem sumSq_replicate_zero (n : Nat) : sumSq (List.replicate n (0:ℝ)) = 0 := by
  induction n with
  | zero => rfl
  | succ n ih =>
    simp only [List.replicate_succ, sumSq, List.map_cons, List.sum_cons]
    have h0 := ih
    simp only [sumSq] at h0
    rw [h0]
    ring

theorem getD_replicate_zero (n i : Nat) : (List.replicate n (0:ℝ)).getD i 0 = 0 := by
  induction n generalizing i with
  | zero => simp
  | succ n ih =>
    cases i with
    | zero => simp [List.replicate_succ]
    | succ i => simp only [List.replicate_succ, List.getD_cons_succ]; exact ih i

theorem sumSq_replicate_set (n i : Nat) (x : ℝ) (h : i < n) :
    sumSq ((List.replicate n (0:ℝ)).set i x) = x * x := by
  induction n generalizing i with
  | zero => exact absurd h (Nat.not_lt_zero i)
  | succ n ih =>
    cases i with
    | zero =>
      simp only [List.replicate_succ, List.set_cons_zero, sumSq, List.map_cons, List.sum_cons]
      have := sumSq_replicate_zero n
      simp only [sumSq] at this
      rw [this]
      ring
    | succ i =>
      simp only [List.replicate_succ, List.set_cons_succ, sumSq, List.map_cons, List.sum_cons]
      have := ih i (Nat.lt_of_succ_lt_succ h)
      simp only [sumSq] at this
      rw [this]
      ring

/--
`generateSemanticVectors` on a text with exactly one keyword `w`: weight
`1/(0+1) = 1` lands at coordinate `|simpleHash w| % 384`, the magnitude is
`√1 = 1`, and normalization leaves the vector unchanged.
-/
theorem generateSemanticVectors_single (text w : String)
    (hkw : extractKeywords text = [w]) :
    generateSemanticVectors text =
      (List.replicate vectorDimensions (0:ℝ)).set
        ((simpleHash w).natAbs % vectorDimensions) 1 := by
  unfold generateSemanticVectors
  rw [hkw]
  have hidx : (simpleHash w).natAbs % vectorDimensions < vectorDimensions :=
    Nat.mod_lt _ (by norm_num [vectorDimensions])
  have hstep : (List.replicate vectorDimensions (0:ℝ)).set
      ((simpleHash w).natAbs % vectorDimensions)
      ((List.replicate vectorDimensions (0:ℝ)).getD
        ((simpleHash w).natAbs % vectorDimensions) 0 + 1 / (((0:Nat) : ℝ) + 1)) =
      (List.replicate vectorDimensions (0:ℝ)).set
        ((simpleHash w).natAbs % vectorDimensions) 1 := by
    rw [getD_replicate_zero]
    norm_num
  simp only [List.enum, List.enumFrom, List.foldl_cons, List.foldl_nil]
  rw [hstep]
  have hsum : sumSq ((List.replicate vectorDimensions (0:ℝ)).set
      ((simpleHash w).natAbs % vectorDimensions) 1) = 1 := by
    rw [sumSq_replicate_set _ _ _ hidx]
    norm_num
  rw [hsum, Real.sqrt_one, if_pos one_pos]
  simp [div_one]

theorem cosineSimilarity_gsv_deploy :
    cosineSimilarity (generateSemanticVectors "deploy") (generateSemanticVectors "deploy") = 1 := by
  rw [generateSemanticVectors_single "deploy" "deploy" (by decide)]
  apply cosineSimilarity_self
  rw [sumSq_replicate_set _ _ _ (Nat.mod_lt _ (by norm_num [vectorDimensions]))]
  norm_num

theorem calculateKeywordRelevance_deploy :
    calculateKeywordRelevance ["deploy"] ["deploy"] = 1 := by
  have h : calculateKeywordRelevance ["deploy"] ["deploy"] =
      (((1:Nat) : ℝ) / ((1:Nat) : ℝ)) := rfl
  rw [h]
  norm_num

/--
Full evaluation of `calculateRelevanceScore` for the query `"deploy"`
against an entry indexed from the content `"deploy"`: cosine 1, Jaccard 1,
entity precision 0, exact-phrase 1, so the weighted sum is
`0.8 + 0.05·exp(-age/30 days)` before the priority boost and the final
`min(·, 1)`.
-/
theorem calculateRelevanceScore_deploy_eval (id src : String) (md : List (String × MVal))
    (ts now : Int) :
    calculateRelevanceScore "deploy" (generateSemanticVectors "deploy")
      (extractKeywords "deploy") (extractEntities "deploy")
      ⟨id, "deploy", generateSemanticVectors "deploy", extractKeywords "deploy",
       extractEntities "deploy", md, ts, src⟩ now =
    min ((0.8 + Real.exp (-(((now - ts : Int) : ℝ)) / 2592000000) * 0.05) *
      (if alLookup md "priority" = some (MVal.s "high") then 1.2 else 1.0)) 1 := by
  unfold calculateRelevanceScore
  rw [show (⟨id, "deploy", generateSemanticVectors "deploy", extractKeywords "deploy",
       extractEntities "deploy", md, ts, src⟩ : MemoryIndex).vectors =
      generateSemanticVectors "deploy" from rfl]
  rw [cosineSimilarity_gsv_deploy]
  rw [show (extractKeywords "deploy" : List String) = ["deploy"] from by decide]
  rw [calculateKeywordRelevance_deploy]
  rw [show (extractEntities "deploy" : List String) = [] from by decide]
  rw [show calculateEntityRelevance [] [] = 0 from rfl]
  rw [if_pos (show strIncludes (strToLower "deploy") (strToLower "deploy") = true by decide)]
  norm_num [mul_comm]

theorem sum_zipWith_mul_nonneg :
    ∀ (a b : List ℝ), (∀ x ∈ a, 0 ≤ x) → (∀ x ∈ b, 0 ≤ x) →
      0 ≤ (List.zipWith (fun x y => x * y) a b).sum := by
  intro a
  induction a with
  | nil => intro b _ _; simp
  | cons x xs ih =>
    intro b ha hb
    cases b with
    | nil => simp
    | cons y ys =>
      simp only [List.zipWith_cons_cons, List.sum_cons]
      refine add_nonneg (mul_nonneg (ha x (by simp)) (hb y (by simp))) ?_
      exact ih ys (fun z hz => ha z (by simp [hz])) (fun z hz => hb z (by simp [hz]))

theorem cosineSimilarity_nonneg (a b : List ℝ) (ha : ∀ x ∈ a, 0 ≤ x)
    (hb : ∀ x ∈ b, 0 ≤ x) : 0 ≤ cosineSimilarity a b := by
  unfold cosineSimilarity
  split
  · exact le_rfl
  · simp only
    split
    · exact le_rfl
    · exact div_nonneg (sum_zipWith_mul_nonneg a b ha hb)
        (mul_nonneg (Real.sqrt_nonneg _) (Real.sqrt_nonneg _))

theorem calculateKeywordRelevance_nonneg (qk mk : List String) :
    0 ≤ calculateKeywordRelevance qk mk := by
  unfold calculateKeywordRelevance
  split
  · exact le_rfl
  · exact div_nonneg (Nat.cast_nonneg _) (Nat.cast_nonneg _)

theorem calculateEntityRelevance_nonneg (qe me : List String) :
    0 ≤ calculateEntityRelevance qe me := by
  unfold calculateEntityRelevance
  split
  · exact le_rfl
  · exact div_nonneg (Nat.cast_nonneg _) (Nat.cast_nonneg _)

theorem getD_nonneg (v : List ℝ) (h : ∀ x ∈ v, 0 ≤ x) (i : Nat) : 0 ≤ v.getD i 0 := by
  rw [List.getD_eq_getElem?_getD]
  rcases hg : v[i]? with _ | x
  · simp
  · simpa using h x (List.getElem?_mem hg)

theorem generateSemanticVectors_nonneg (text : String) :
    ∀ x ∈ generateSemanticVectors text, 0 ≤ x := by
  unfold generateSemanticVectors
  have hfold : ∀ (ps : List (Nat × String)) (v : List ℝ), (∀ x ∈ v, 0 ≤ x) →
      ∀ x ∈ ps.foldl
        (fun (v : List ℝ) p =>
          let index := (simpleHash p.2).natAbs % vectorDimensions
          v.set index (v.getD index 0 + 1 / ((p.1 : ℝ) + 1))) v, 0 ≤ x := by
    intro ps
    induction ps with
    | nil => intro v hv; exact hv
    | cons p rest ih =>
      intro v hv
      refine ih _ fun x hx => ?_
      rcases List.mem_or_eq_of_mem_set hx with hx | hx
      · exact hv x hx
      · subst hx
        have : (0:ℝ) ≤ 1 / ((p.1 : ℝ) + 1) := by positivity
        exact add_nonneg (getD_nonneg v hv _) this
  simp only
  split
  · intro x hx
    obtain ⟨y, hy, rfl⟩ := List.mem_map.mp hx
    refine div_nonneg ?_ (Real.sqrt_nonneg _)
    exact hfold _ _ (fun z hz => by simpa using (List.eq_of_mem_replicate hz).ge) y hy
  · intro x hx
    exact hfold _ _ (fun z hz => by simpa using (List.eq_of_mem_replicate hz).ge) x hx

/--
C6 (amended).  For every query and candidate memory, `search` assigns the
relevance score `min(F, 1) = clamp[0,1](F)` where `F` is the weighted sum
`0.4·cosine + 0.3·jaccard + 0.15·precision + 0.1·[substring] + 0.05·exp(-age/30d)`
multiplied by `1.2` when `metadata.priority = "high"` and `1.0` otherwise;
whenever the query and memory vectors have nonnegative coordinates (which
`generateSemanticVectors` always produces) the assigned score lies in
`[0, 1]`.  The claim as stated — that the assigned score *equals* the
weighted sum and that the sum lies in `[0, 1]` — fails when the boosted sum
exceeds 1 (see the counterexample).
-/
theorem relevanceScore_clamped_formula (query : String) (qv : List ℝ) (qk qe : List String)
    (m : MemoryIndex) (now : Int) (hq : ∀ x ∈ qv, 0 ≤ x) (hm : ∀ x ∈ m.vectors, 0 ≤ x) :
    calculateRelevanceScore query qv qk qe m now =
      max 0 (min 1 ((cosineSimilarity qv m.vectors * 0.4 +
        calculateKeywordRelevance qk m.keywords * 0.3 +
        calculateEntityRelevance qe m.entities * 0.15 +
        (if strIncludes (strToLower m.content) (strToLower query) then (1.0:ℝ) else 0.0) * 0.1 +
        Real.exp (-(((now - m.timestamp : Int)) : ℝ) / (30 * 24 * 60 * 60 * 1000)) * 0.05) *
        (if alLookup m.metadata "priority" = some (MVal.s "high") then 1.2 else 1.0))) ∧
    0 ≤ calculateRelevanceScore query qv qk qe m now ∧
    calculateRelevanceScore query qv qk qe m now ≤ 1 := by
  have hscore : calculateRelevanceScore query qv qk qe m now =
      min ((cosineSimilarity qv m.vectors * 0.4 +
        calculateKeywordRelevance qk m.keywords * 0.3 +
        calculateEntityRelevance qe m.entities * 0.15 +
        (if strIncludes (strToLower m.content) (strToLower query) then (1.0:ℝ) else 0.0) * 0.1 +
        Real.exp (-(((now - m.timestamp : Int)) : ℝ) / (30 * 24 * 60 * 60 * 1000)) * 0.05) *
        (if alLookup m.metadata "priority" = some (MVal.s "high") then 1.2 else 1.0)) 1.0 := rfl
  set c := cosineSimilarity qv m.vectors with hc
  set k := calculateKeywordRelevance qk m.keywords with hk
  set en := calculateEntityRelevance qe m.entities with hen
  set p := (if strIncludes (strToLower m.content) (strToLower query) then (1.0:ℝ) else 0.0)
    with hp
  set r := Real.exp (-(((now - m.timestamp : Int)) : ℝ) / (30 * 24 * 60 * 60 * 1000)) with hr
  set b := (if alLookup m.metadata "priority" = some (MVal.s "high") then (1.2:ℝ) else 1.0)
    with hb
  have h1 : 0 ≤ c := hc ▸ cosineSimilarity_nonneg _ _ hq hm
  have h2 : 0 ≤ k := hk ▸ calculateKeywordRelevance_nonneg _ _
  have h3 : 0 ≤ en := hen ▸ calculateEntityRelevance_nonneg _ _
  have h4 : 0 ≤ p := by rw [hp]; split <;> norm_num
  have h5 : 0 ≤ r := hr ▸ (Real.exp_pos _).le
  have h6 : 0 ≤ b := by rw [hb]; split <;> norm_num
  have hF0 : 0 ≤ (c * 0.4 + k * 0.3 + en * 0.15 + p * 0.1 + r * 0.05) * b := by
    have i1 := mul_nonneg h1 (by norm_num : (0:ℝ) ≤ 0.4)
    have i2 := mul_nonneg h2 (by norm_num : (0:ℝ) ≤ 0.3)
    have i3 := mul_nonneg h3 (by norm_num : (0:ℝ) ≤ 0.15)
    have i4 := mul_nonneg h4 (by norm_num : (0:ℝ) ≤ 0.1)
    have i5 := mul_nonneg h5 (by norm_num : (0:ℝ) ≤ 0.05)
    refine mul_nonneg (by linarith) h6
  have h10 : (1.0 : ℝ) = 1 := by norm_num
  rw [h10] at hscore
  refine ⟨?_, ?_, ?_⟩
  · rw [hscore, min_comm, max_eq_right (le_min zero_le_one hF0)]
  · rw [hscore]
    exact le_min hF0 zero_le_one
  · rw [hscore]
    exact min_le_right _ _

/--
Witness for C6: the nonnegativity hypotheses are discharged for the
concrete query "deploy" and the entry indexed from the content "deploy".
-/
theorem relevanceScore_clamped_formula_witness :
    (∀ x ∈ generateSemanticVectors "deploy", 0 ≤ x) ∧
    0 ≤ calculateRelevanceScore "deploy" (generateSemanticVectors "deploy")
      (extractKeywords "deploy") (extractEntities "deploy")
      ⟨"m1", "deploy", generateSemanticVectors "deploy", extractKeywords "deploy",
       extractEntities "deploy", [("priority", MVal.s "high")], 0, "test"⟩ 0 ∧
    calculateRelevanceScore "deploy" (generateSemanticVectors "deploy")
      (extractKeywords "deploy") (extractEntities "deploy")
      ⟨"m1", "deploy", generateSemanticVectors "deploy", extractKeywords "deploy",
       extractEntities "deploy", [("priority", MVal.s "high")], 0, "test"⟩ 0 ≤ 1 :=
  ⟨generateSemanticVectors_nonneg "deploy",
   (relevanceScore_clamped_formula "deploy" (generateSemanticVectors "deploy")
     (extractKeywords "deploy") (extractEntities "deploy")
     ⟨"m1", "deploy", generateSemanticVectors "deploy", extractKeywords "deploy",
      extractEntities "deploy", [("priority", MVal.s "high")], 0, "test"⟩ 0
     (generateSemanticVectors_nonneg "deploy") (generateSemanticVectors_nonneg "deploy")).2⟩

/--
Counterexample for C6 as stated: for the query "deploy" against the entry
indexed from the content "deploy" with `priority: "high"` at age 0, the
claimed formula value is `(0.4 + 0.3 + 0 + 0.1 + 0.05)·1.2 = 1.02`, which
exceeds 1, and the score `search` actually assigns is `min(1.02, 1) = 1`,
not the formula value.
-/
theorem relevanceScore_formula_counterexample :
    calculateRelevanceScore "deploy" (generateSemanticVectors "deploy")
      (extractKeywords "deploy") (extractEntities "deploy")
      ⟨"m1", "deploy", generateSemanticVectors "deploy", extractKeywords "deploy",
       extractEntities "deploy", [("priority", MVal.s "high")], 0, "test"⟩ 0 = 1 ∧
    (cosineSimilarity (generateSemanticVectors "deploy") (generateSemanticVectors "deploy") * 0.4 +
      calculateKeywordRelevance (extractKeywords "deploy") (extractKeywords "deploy") * 0.3 +
      calculateEntityRelevance (extractEntities "deploy") (extractEntities "deploy") * 0.15 +
      1.0 * 0.1 + Real.exp (-(((0 - 0 : Int)) : ℝ) / (30 * 24 * 60 * 60 * 1000)) * 0.05) * 1.2
      = 1.02 ∧
    (1 : ℝ) ≠ 1.02 := by
  refine ⟨?_, ?_, by norm_num⟩
  · rw [calculateRelevanceScore_deploy_eval "m1" "test" [("priority", MVal.s "high")] 0 0]
    rw [if_pos (by decide)]
    norm_num [Real.exp_zero]
  · rw [cosineSimilarity_gsv_deploy,
      show (extractKeywords "deploy" : List String) = ["deploy"] from by decide,
      show (extractEntities "deploy" : List String) = [] from by decide,
      calculateKeywordRelevance_deploy,
      show calculateEntityRelevance [] [] = 0 from rfl]
    norm_num [Real.exp_zero]

/--
C7 (amended).  Fixing everything else that enters the scoring formula —
cosine similarity, keyword overlap, entity overlap, the exact-phrase
indicator and the priority boost — a more recent entry never receives a
lower relevance score than an older one: the only remaining term,
`0.05·exp(-age/30 days)`, is nonincreasing in age.  The claim as stated
fixes only the first three of these, and fails when the older entry has
`priority: "high"` (see the counterexample).
-/
theorem relevanceScore_recency_monotone (query : String) (qv : List ℝ) (qk qe : List String)
    (e1 e2 : MemoryIndex) (now : Int)
    (hcos : cosineSimilarity qv e1.vectors = cosineSimilarity qv e2.vectors)
    (hkw : calculateKeywordRelevance qk e1.keywords = calculateKeywordRelevance qk e2.keywords)
    (hent : calculateEntityRelevance qe e1.entities = calculateEntityRelevance qe e2.entities)
    (hphrase : strIncludes (strToLower e1.content) (strToLower query) =
      strIncludes (strToLower e2.content) (strToLower query))
    (hprio : alLookup e1.metadata "priority" = alLookup e2.metadata "priority")
    (hts : e1.timestamp ≤ e2.timestamp) :
    calculateRelevanceScore query qv qk qe e1 now ≤
      calculateRelevanceScore query qv qk qe e2 now := by
  unfold calculateRelevanceScore
  rw [hcos, hkw, hent, hphrase, hprio]
  have hexp : Real.exp (-(((now - e1.timestamp : Int)) : ℝ) / (30 * 24 * 60 * 60 * 1000)) ≤
      Real.exp (-(((now - e2.timestamp : Int)) : ℝ) / (30 * 24 * 60 * 60 * 1000)) := by
    rw [Real.exp_le_exp]
    rw [div_le_div_iff_of_pos_right (by norm_num : (0:ℝ) < 30 * 24 * 60 * 60 * 1000)]
    rw [neg_le_neg_iff]
    exact_mod_cast sub_le_sub_left hts now
  have hb : (0:ℝ) ≤
      if alLookup e2.metadata "priority" = some (MVal.s "high") then 1.2 else 1.0 := by
    split <;> norm_num
  refine min_le_min ?_ le_rfl
  refine mul_le_mul_of_nonneg_right ?_ hb
  have := mul_le_mul_of_nonneg_right hexp (by norm_num : (0:ℝ) ≤ 0.05)
  linarith

/--
Witness for C7: the amended theorem applied to two entries with the same
content "deploy" and the same (empty) metadata, the first at timestamp 0,
the second at timestamp 100.
-/
theorem relevanceScore_recency_monotone_witness :
    calculateRelevanceScore "deploy" (generateSemanticVectors "deploy")
      (extractKeywords "deploy") (extractEntities "deploy")
      ⟨"m1", "deploy", generateSemanticVectors "deploy", extractKeywords "deploy",
       extractEntities "deploy", [], 0, "test"⟩ 100 ≤
    calculateRelevanceScore "deploy" (generateSemanticVectors "deploy")
      (extractKeywords "deploy") (extractEntities "deploy")
      ⟨"m2", "deploy", generateSemanticVectors "deploy", extractKeywords "deploy",
       extractEntities "deploy", [], 100, "test"⟩ 100 :=
  relevanceScore_recency_monotone "deploy" (generateSemanticVectors "deploy")
    (extractKeywords "deploy") (extractEntities "deploy")
    ⟨"m1", "deploy", generateSemanticVectors "deploy", extractKeywords "deploy",
     extractEntities "deploy", [], 0, "test"⟩
    ⟨"m2", "deploy", generateSemanticVectors "deploy", extractKeywords "deploy",
     extractEntities "deploy", [], 100, "test"⟩ 100 rfl rfl rfl rfl rfl (by norm_num)

/--
Counterexample for C7 as stated: the query "deploy" and two entries with the
identical content "deploy" — hence equal keyword overlap, equal entity
overlap, and equal vector similarity.  The older entry (timestamp 0, with
`priority: "high"`) scores `min(0.96 + 0.06·e⁻¹, 1) > 0.85`, while the more
recent entry (timestamp = query time = 2592000000, plain metadata) scores
`0.85`: the more recent entry receives a strictly lower score.
-/
theorem relevanceScore_recency_counterexample :
    calculateRelevanceScore "deploy" (generateSemanticVectors "deploy")
      (extractKeywords "deploy") (extractEntities "deploy")
      ⟨"m2", "deploy", generateSemanticVectors "deploy", extractKeywords "deploy",
       extractEntities "deploy", [], 2592000000, "test"⟩ 2592000000 <
    calculateRelevanceScore "deploy" (generateSemanticVectors "deploy")
      (extractKeywords "deploy") (extractEntities "deploy")
      ⟨"m1", "deploy", generateSemanticVectors "deploy", extractKeywords "deploy",
       extractEntities "deploy", [("priority", MVal.s "high")], 0, "test"⟩ 2592000000 := by
  rw [calculateRelevanceScore_deploy_eval "m2" "test" [] 2592000000 2592000000,
    calculateRelevanceScore_deploy_eval "m1" "test" [("priority", MVal.s "high")] 0 2592000000]
  rw [if_neg (by decide), if_pos (by decide)]
  have hnew : ((2592000000 : Int) - 2592000000 : Int) = 0 := by norm_num
  rw [hnew]
  have hold : (-((((2592000000 : Int) - 0 : Int)) : ℝ) / 2592000000) = -1 := by
    norm_num
  rw [hold]
  have hE := Real.exp_pos (-1)
  have hE1 : Real.exp (-1) ≤ 1 := by
    rw [show (1:ℝ) = Real.exp 0 from (Real.exp_zero).symm]
    exact Real.exp_le_exp.mpr (by norm_num)
  rw [show (-((0:Int)):ℝ) / 2592000000 = 0 from by norm_num]
  rw [Real.exp_zero]
  rw [min_eq_left (by norm_num)]
  refine lt_min ?_ ?_
  · nlinarith [hE]
  · norm_num

/-! ## Unfolding lemmas for the import resolver -/

theorem normalizePath_abs (p : String) (h : strStartsWith p "/" = true) :
    normalizePath p = p := by
  unfold normalizePath
  rw [if_pos h]

theorem resolveImportPath_abs (p b : String) (h : strStartsWith p "/" = true) :
    resolveImportPath p b = p := by
  unfold resolveImportPath
  rw [if_pos h]

/-- The depth-guard branch: past `maxDepth` the branch stops with a warning. -/
theorem resolveRecursive_depth_exceeded (fs : String → Option String) (opts : ImportOptions)
    (now : Int) (fuel : Nat) (path : String) (depth : Nat) (visited : List String)
    (st : ResolverState) (hd : depth > opts.maxDepth) :
    resolveRecursive fs opts now (fuel + 1) path depth visited st =
      (.ok [], pushWarn st (.maxDepthReached path)) := by
  simp only [resolveRecursive, if_pos hd]

/-- The cycle branch: a path already on the current branch stops with a warning. -/
theorem resolveRecursive_cycle (fs : String → Option String) (opts : ImportOptions)
    (now : Int) (fuel : Nat) (path : String) (depth : Nat) (visited : List String)
    (st : ResolverState) (hd : ¬ depth > opts.maxDepth) (hnorm : normalizePath path = path)
    (hv : visited.contains path = true) :
    resolveRecursive fs opts now (fuel + 1) path depth visited st =
      (.ok [], pushWarn st (.circularImport path)) := by
  simp only [resolveRecursive, if_neg hd, hnorm, hv, if_pos rfl]
  simp

/-- The cache-hit branch. -/
theorem resolveRecursive_cached (fs : String → Option String) (opts : ImportOptions)
    (now : Int) (fuel : Nat) (path : String) (depth : Nat) (visited : List String)
    (st : ResolverState) (cached : ImportedContent) (hd : ¬ depth > opts.maxDepth)
    (hnorm : normalizePath path = path) (hv : visited.contains path = false)
    (hc : alLookup st.importCache path = some cached) :
    resolveRecursive fs opts now (fuel + 1) path depth visited st = (.ok [cached], st) := by
  simp only [resolveRecursive, if_neg hd, hnorm, hv, hc]
  simp

/-- The root-read-failure branch: the error is thrown. -/
theorem resolveRecursive_read_failed (fs : String → Option String) (opts : ImportOptions)
    (now : Int) (fuel : Nat) (path : String) (depth : Nat) (visited : List String)
    (st : ResolverState) (hd : ¬ depth > opts.maxDepth) (hnorm : normalizePath path = path)
    (hv : visited.contains path = false) (hc : alLookup st.importCache path = none)
    (hfs : fs path = none) :
    resolveRecursive fs opts now (fuel + 1) path depth visited st =
      (.error (.readFailed path), st) := by
  simp only [resolveRecursive, if_neg hd, hnorm, hv, hc, hfs]
  simp

/-- The successful-read branch, with the state updates written out. -/
theorem resolveRecursive_read (fs : String → Option String) (opts : ImportOptions)
    (now : Int) (fuel : Nat) (path : String) (depth : Nat) (visited : List String)
    (st : ResolverState) (content : String) (hd : ¬ depth > opts.maxDepth)
    (hnorm : normalizePath path = path) (hv : visited.contains path = false)
    (hc : alLookup st.importCache path = none) (hfs : fs path = some content) :
    resolveRecursive fs opts now (fuel + 1) path depth visited st =
      (let st2 : ResolverState :=
        ⟨alSet st.importCache path ⟨path, content, depth, now⟩,
         if (extractImports content).isEmpty then st.importGraph
         else alSet st.importGraph path (eraseDupsKeepFirst (extractImports content)),
         st.warnings⟩
       let out := processImports
         (fun p s => resolveRecursive fs opts now fuel p (depth + 1) (path :: visited) s)
         fs opts path (extractImports content) st2
       (.ok (⟨path, content, depth, now⟩ :: out.1), out.2)) := by
  simp only [resolveRecursive, if_neg hd, hnorm, hv, hc, hfs, Bool.false_eq_true, if_false]
  split <;> rfl

/-- One import token whose target resolves, passes the extension check,
exists, and whose recursive step succeeds. -/
theorem processImports_cons_ok
    (step : String → ResolverState → Except ResolveError (List ImportedContent) × ResolverState)
    (fs : String → Option String) (opts : ImportOptions) (pp tok : String)
    (rest : List String) (st st1 : ResolverState) (rp c : String)
    (rs : List ImportedContent)
    (hrp : resolveImportPath tok (if opts.basePath = "" then dirname pp else opts.basePath) = rp)
    (hext : isAllowedExtension rp opts.allowedExtensions = true)
    (hfs : fs rp = some c) (hstep : step rp st = (.ok rs, st1)) :
    processImports step fs opts pp (tok :: rest) st =
      ((rs ++ (processImports step fs opts pp rest st1).1),
       (processImports step fs opts pp rest st1).2) := by
  simp only [processImports, hrp, hext, hfs, hstep]
  simp

/--
C3.  For files A and B that import each other (both absolute, with allowed
extensions, distinct): `resolveImports(A)` terminates and returns content
for each of A and B exactly once — A at depth 0, then B at depth 1 — and
logs a circular-import warning for A, whose back-edge was detected by the
per-branch visited set; `maxDepth` is any value of the form `K + 2` (the
default is 5) so the cycle check is reached before the depth guard.
-/
theorem resolveImports_cycle (fs : String → Option String) (A B cA cB : String) (now : Int)
    (K : Nat) (exts : List String) (fsym : Bool) (base : String)
    (hAB : A ≠ B)
    (hAabs : strStartsWith A "/" = true) (hBabs : strStartsWith B "/" = true)
    (hAext : isAllowedExtension A exts = true) (hBext : isAllowedExtension B exts = true)
    (hfsA : fs A = some cA) (hfsB : fs B = some cB)
    (hIA : extractImports cA = [B]) (hIB : extractImports cB = [A]) :
    ∃ st', resolveImports fs ⟨K + 2, exts, fsym, base⟩ A emptyResolverState now =
        (.ok [⟨A, cA, 0, now⟩, ⟨B, cB, 1, now⟩], st') ∧
      ResolverWarning.circularImport A ∈ st'.warnings ∧
      (([⟨A, cA, 0, now⟩, ⟨B, cB, 1, now⟩] : List ImportedContent).filter
        fun ic => ic.path = A).length = 1 ∧
      (([⟨A, cA, 0, now⟩, ⟨B, cB, 1, now⟩] : List ImportedContent).filter
        fun ic => ic.path = B).length = 1 := by
  have hnormA := normalizePath_abs A hAabs
  have hnormB := normalizePath_abs B hBabs
  have hBA : B ≠ A := Ne.symm hAB
  have hstep2 : ∀ st : ResolverState,
      resolveRecursive fs ⟨K + 2, exts, fsym, base⟩ now (K + 2) A 2 [B, A] st =
        (.ok [], pushWarn st (.circularImport A)) := by
    intro st
    rw [show K + 2 = (K + 1) + 1 from rfl]
    exact resolveRecursive_cycle fs _ now (K + 1) A 2 [B, A] st
      (show ¬ 2 > K + 2 by omega) hnormA (by simp)
  have hstepB : ∀ st : ResolverState, alLookup st.importCache B = none →
      resolveRecursive fs ⟨K + 2, exts, fsym, base⟩ now (K + 3) B 1 [A] st =
        (.ok [⟨B, cB, 1, now⟩],
         pushWarn ⟨alSet st.importCache B ⟨B, cB, 1, now⟩,
           alSet st.importGraph B (eraseDupsKeepFirst [A]), st.warnings⟩
           (.circularImport A)) := by
    intro st hcache
    rw [show K + 3 = (K + 2) + 1 from rfl]
    rw [resolveRecursive_read fs _ now (K + 2) B 1 [A] st cB
      (show ¬ 1 > K + 2 by omega) hnormB
      (by simp [List.contains, List.elem_eq_mem, hBA]) hcache hfsB]
    simp only [hIB, List.isEmpty_cons, Bool.false_eq_true, if_false]
    rw [processImports_cons_ok _ fs _ B A [] _ _ A cA []
      (resolveImportPath_abs A _ hAabs) hAext hfsA (hstep2 _)]
    simp [processImports]
  have hcacheB : alLookup
      (alSet ([] : List (String × ImportedContent)) A ⟨A, cA, 0, now⟩) B = none := by
    rw [alLookup_alSet]
    rw [if_neg hBA]
    rfl
  have hmain : resolveImports fs ⟨K + 2, exts, fsym, base⟩ A emptyResolverState now =
      (.ok [⟨A, cA, 0, now⟩, ⟨B, cB, 1, now⟩],
       pushWarn
         ⟨alSet (alSet [] A ⟨A, cA, 0, now⟩) B ⟨B, cB, 1, now⟩,
          alSet (alSet [] A (eraseDupsKeepFirst [B])) B (eraseDupsKeepFirst [A]), []⟩
         (.circularImport A)) := by
    unfold resolveImports
    rw [show (⟨K + 2, exts, fsym, base⟩ : ImportOptions).maxDepth + 2 = (K + 3) + 1 from rfl]
    rw [resolveRecursive_read fs _ now (K + 3) A 0 [] emptyResolverState cA
      (show ¬ 0 > K + 2 by omega) hnormA (by simp) rfl hfsA]
    simp only [hIA, List.isEmpty_cons, Bool.false_eq_true, if_false]
    rw [processImports_cons_ok _ fs _ A B [] _ _ B cB [⟨B, cB, 1, now⟩]
      (resolveImportPath_abs B _ hBabs) hBext hfsB (hstepB _ hcacheB)]
    simp [processImports, emptyResolverState]
  refine ⟨_, hmain, ?_, ?_, ?_⟩
  · simp [pushWarn]
  · simp only [List.filter]
    simp [hAB, Ne.symm hAB]
  · simp only [List.filter]
    simp [hAB, Ne.symm hAB]

/-- Witness for C3: two concrete mutually-importing files under the default
options (`maxDepth = 5 = 3 + 2`). -/
theorem resolveImports_cycle_witness :
    ∃ st', resolveImports
        (fun p => if p = "/a.md" then some "@/b.md"
                  else if p = "/b.md" then some "@/a.md" else none)
        (defaultImportOptions "/a.md") "/a.md" emptyResolverState 0 =
      (.ok [⟨"/a.md", "@/b.md", 0, 0⟩, ⟨"/b.md", "@/a.md", 1, 0⟩], st') ∧
      ResolverWarning.circularImport "/a.md" ∈ st'.warnings := by
  obtain ⟨st', h1, h2, _, _⟩ := resolveImports_cycle
    (fun p => if p = "/a.md" then some "@/b.md"
              else if p = "/b.md" then some "@/a.md" else none)
    "/a.md" "/b.md" "@/b.md" "@/a.md" 0 3
    [".md", ".txt", ".yaml", ".yml", ".json"] false "/"
    (by decide) (by decide) (by decide) (by decide) (by decide) rfl rfl
    (by decide) (by decide)
  exact ⟨st', h1, h2⟩

/--
Resolution of a linear import chain `g 0 → g 1 → ⋯ → g (N-1)`: starting at
link `i` with `depth + fuel = maxDepth + 2` (the relation `resolveImports`
establishes and recursion maintains), the result is one node per link from
`i` for `min (N - i) (maxDepth + 1 - depth)` links, at consecutive depths,
and the cache only gains chain paths.
-/
theorem chain_resolveRecursive (fs : String → Option String) (opts : ImportOptions)
    (now : Int) (g : Nat → String) (c : Nat → String) (N : Nat)
    (habs : ∀ i, i < N → strStartsWith (g i) "/" = true)
    (hext : ∀ i, i < N → isAllowedExtension (g i) opts.allowedExtensions = true)
    (hfs : ∀ i, i < N → fs (g i) = some (c i))
    (himp : ∀ i, i < N → extractImports (c i) = if i + 1 < N then [g (i + 1)] else [])
    (hinj : ∀ i, i < N → ∀ j, j < N → g i = g j → i = j) :
    ∀ (fuel : Nat), ∀ (i depth : Nat) (visited : List String) (st : ResolverState),
      i < N → depth + fuel = opts.maxDepth + 2 →
      (∀ j, i ≤ j → j < N → visited.contains (g j) = false ∧
        alLookup st.importCache (g j) = none) →
      ∃ st', resolveRecursive fs opts now fuel (g i) depth visited st =
          (.ok ((List.range (min (N - i) (opts.maxDepth + 1 - depth))).map
            fun k => ⟨g (i + k), c (i + k), depth + k, now⟩), st') ∧
        (∀ p, alLookup st'.importCache p ≠ none →
          alLookup st.importCache p ≠ none ∨ ∃ j, i ≤ j ∧ j < N ∧ p = g j) := by
  intro fuel
  induction fuel with
  | zero =>
    intro i depth visited st hiN hdf _
    have hm : min (N - i) (opts.maxDepth + 1 - depth) = 0 := by omega
    refine ⟨st, ?_, fun p hp => Or.inl hp⟩
    rw [hm]
    rfl
  | succ fuel ih =>
    intro i depth visited st hiN hdf hpre
    by_cases hd : depth > opts.maxDepth
    · have hm : min (N - i) (opts.maxDepth + 1 - depth) = 0 := by omega
      refine ⟨pushWarn st (.maxDepthReached (g i)), ?_, fun p hp => Or.inl hp⟩
      rw [hm, resolveRecursive_depth_exceeded fs opts now fuel (g i) depth visited st hd]
      rfl
    · have hvis := (hpre i le_rfl hiN).1
      have hcache := (hpre i le_rfl hiN).2
      rw [resolveRecursive_read fs opts now fuel (g i) depth visited st (c i) hd
        (normalizePath_abs _ (habs i hiN)) hvis hcache (hfs i hiN)]
      rw [himp i hiN]
      by_cases hi1 : i + 1 < N
      · simp only [if_pos hi1, List.isEmpty_cons, Bool.false_eq_true, if_false]
        have hstep := ih (i + 1) (depth + 1) (g i :: visited)
          ⟨alSet st.importCache (g i) ⟨g i, c i, depth, now⟩,
           alSet st.importGraph (g i) (eraseDupsKeepFirst [g (i + 1)]), st.warnings⟩
          hi1 (by omega) ?hpre'
        case hpre' =>
          intro j hij hjN
          have hne : g j ≠ g i := fun hh => by
            have := hinj j hjN i hiN hh
            omega
          constructor
          · simp only [List.contains, List.elem_eq_mem, List.mem_cons, decide_eq_false_iff_not]
            push_neg
            refine ⟨hne, ?_⟩
            have := (hpre j (by omega) hjN).1
            simpa [List.contains, List.elem_eq_mem] using this
          · show alLookup (alSet st.importCache (g i) _) (g j) = none
            rw [alLookup_alSet, if_neg hne]
            exact (hpre j (by omega) hjN).2
        obtain ⟨st3, hrec, hcache3⟩ := hstep
        rw [processImports_cons_ok _ fs opts (g i) (g (i + 1)) [] _ st3 (g (i + 1)) (c (i + 1))
          _ (resolveImportPath_abs _ _ (habs (i + 1) hi1)) (hext (i + 1) hi1)
          (hfs (i + 1) hi1) hrec]
        refine ⟨st3, ?_, ?_⟩
        · simp only [processImports, List.append_nil]
          have hm : min (N - i) (opts.maxDepth + 1 - depth) =
              min (N - (i + 1)) (opts.maxDepth + 1 - (depth + 1)) + 1 := by omega
          rw [hm, List.range_succ_eq_map, List.map_cons, List.map_map]
          have hhead : (⟨g (i + 0), c (i + 0), depth + 0, now⟩ : ImportedContent) =
              ⟨g i, c i, depth, now⟩ := by norm_num
          rw [hhead]
          have htail : ∀ k,
              ((fun k => (⟨g (i + k), c (i + k), depth + k, now⟩ : ImportedContent)) ∘
                Nat.succ) k =
              (fun k => (⟨g (i + 1 + k), c (i + 1 + k), depth + 1 + k, now⟩ :
                ImportedContent)) k := by
            intro k
            simp only [Function.comp]
            rw [show i + Nat.succ k = i + 1 + k from by omega,
              show depth + Nat.succ k = depth + 1 + k from by omega]
          rw [List.map_congr_left fun k _ => htail k]
        · intro p hp
          rcases hcache3 p hp with hp2 | ⟨j, hij, hjN, rfl⟩
          · show alLookup st.importCache p ≠ none ∨ _
            by_cases hpi : p = g i
            · exact Or.inr ⟨i, le_rfl, hiN, hpi⟩
            · rw [alLookup_alSet, if_neg hpi] at hp2
              exact Or.inl hp2
          · exact Or.inr ⟨j, by omega, hjN, rfl⟩
      · simp only [if_neg hi1, List.isEmpty_nil, if_true]
        refine ⟨⟨alSet st.importCache (g i) ⟨g i, c i, depth, now⟩, st.importGraph,
          st.warnings⟩, ?_, ?_⟩
        · simp only [processImports]
          have hm : min (N - i) (opts.maxDepth + 1 - depth) = 1 := by omega
          rw [hm, show List.range 1 = [0] from rfl, List.map_cons, List.map_nil]
          norm_num
        · intro p hp
          by_cases hpi : p = g i
          · exact Or.inr ⟨i, le_rfl, hiN, hpi⟩
          · rw [show alLookup (alSet st.importCache (g i) ⟨g i, c i, depth, now⟩) p =
                alLookup st.importCache p from by rw [alLookup_alSet, if_neg hpi]] at hp
            exact Or.inl hp

/--
C4.  A linear chain of `N` nested imports `g 0 → g 1 → ⋯ → g (N-1)` resolved
with `maxDepth = K` yields content for exactly `min N (K + 1)` files — the
links at depths `0` through `min N (K + 1) - 1` — and whenever the current
depth exceeds `maxDepth` the recursion stops that branch at once with a
`maxDepthReached` warning.
-/
theorem resolveImports_chain (fs : String → Option String) (opts : ImportOptions)
    (now : Int) (g c : Nat → String) (N : Nat) (hN : 0 < N)
    (habs : ∀ i, i < N → strStartsWith (g i) "/" = true)
    (hext : ∀ i, i < N → isAllowedExtension (g i) opts.allowedExtensions = true)
    (hfs : ∀ i, i < N → fs (g i) = some (c i))
    (himp : ∀ i, i < N → extractImports (c i) = if i + 1 < N then [g (i + 1)] else [])
    (hinj : ∀ i, i < N → ∀ j, j < N → g i = g j → i = j) :
    (∃ st', resolveImports fs opts (g 0) emptyResolverState now =
        (.ok ((List.range (min N (opts.maxDepth + 1))).map
          fun k => ⟨g k, c k, k, now⟩), st')) ∧
    ((List.range (min N (opts.maxDepth + 1))).map
        fun k => (⟨g k, c k, k, now⟩ : ImportedContent)).length
      = min N (opts.maxDepth + 1) ∧
    (∀ (fuel depth : Nat) (p : String) (visited : List String) (st : ResolverState),
      depth > opts.maxDepth →
      resolveRecursive fs opts now (fuel + 1) p depth visited st =
        (.ok [], pushWarn st (.maxDepthReached p))) := by
  refine ⟨?_, by simp, ?_⟩
  · obtain ⟨st', hrec, -⟩ := chain_resolveRecursive fs opts now g c N habs hext hfs himp hinj
      (opts.maxDepth + 2) 0 0 [] emptyResolverState hN (by omega)
      (fun j _ _ => ⟨rfl, rfl⟩)
    refine ⟨st', ?_⟩
    unfold resolveImports
    rw [hrec]
    norm_num
  · intro fuel depth p visited st hd
    exact resolveRecursive_depth_exceeded fs opts now fuel p depth visited st hd

/-- Witness for C4: a three-link chain resolved with `maxDepth = 1` yields
content for exactly `min 3 2 = 2` files, at depths 0 and 1. -/
theorem resolveImports_chain_witness :
    ∃ st', resolveImports
        (fun p => if p = "/c0.md" then some "@/c1.md"
                  else if p = "/c1.md" then some "@/c2.md"
                  else if p = "/c2.md" then some "done" else none)
        ⟨1, [".md"], false, "/"⟩ "/c0.md" emptyResolverState 0 =
      (.ok [⟨"/c0.md", "@/c1.md", 0, 0⟩, ⟨"/c1.md", "@/c2.md", 1, 0⟩], st') := by
  obtain ⟨⟨st', hrec⟩, -, -⟩ := resolveImports_chain
    (fun p => if p = "/c0.md" then some "@/c1.md"
              else if p = "/c1.md" then some "@/c2.md"
              else if p = "/c2.md" then some "done" else none)
    ⟨1, [".md"], false, "/"⟩ 0
    (fun i => if i = 0 then "/c0.md" else if i = 1 then "/c1.md" else "/c2.md")
    (fun i => if i = 0 then "@/c1.md" else if i = 1 then "@/c2.md" else "done")
    3 (by decide) (by decide) (by decide) (by decide) (by decide) (by decide)
  exact ⟨st', hrec⟩

/-- One full unfolding of a `resolveRecursive` call on an uncached,
unvisited path, without assuming the path is already normalized. -/
theorem resolveRecursive_root (fs : String → Option String) (opts : ImportOptions)
    (now : Int) (fuel : Nat) (path : String) (depth : Nat) (visited : List String)
    (st : ResolverState) (hd : ¬ depth > opts.maxDepth)
    (hv : visited.contains (normalizePath path) = false)
    (hc : alLookup st.importCache (normalizePath path) = none) :
    resolveRecursive fs opts now (fuel + 1) path depth visited st =
      (match fs (normalizePath path) with
       | none => (.error (.readFailed (normalizePath path)), st)
       | some content =>
         let st2 : ResolverState :=
           ⟨alSet st.importCache (normalizePath path)
              ⟨normalizePath path, content, depth, now⟩,
            if (extractImports content).isEmpty then st.importGraph
            else alSet st.importGraph (normalizePath path)
              (eraseDupsKeepFirst (extractImports content)),
            st.warnings⟩
         let out := processImports
           (fun p s => resolveRecursive fs opts now fuel p (depth + 1)
             (normalizePath path :: visited) s)
           fs opts (normalizePath path) (extractImports content) st2
         (.ok (⟨normalizePath path, content, depth, now⟩ :: out.1), out.2)) := by
  simp only [resolveRecursive, if_neg hd, hv, Bool.false_eq_true, if_false, hc]
  cases hfs : fs (normalizePath path) with
  | none => simp only [hfs]
  | some content =>
    simp only [hfs]
    split <;> rfl

/--
C9.  From a fresh resolver state, `resolveImports` throws if and only if
reading the (normalized) root path fails, and when the root read succeeds
the root document heads the result.  Every nested failure is recovered
locally: a depth overflow or a cycle makes just that branch return `[]`
with a warning, and in the sibling loop a disallowed extension, a missing
target, or a branch that threw only push a warning and hand the unchanged
remaining siblings to the same loop, so sibling imports and the parent
document still appear in the result.
-/
theorem resolveImports_root_error_semantics (fs : String → Option String)
    (opts : ImportOptions) (path : String) (now : Int) :
    ((∃ e st', resolveImports fs opts path emptyResolverState now = (.error e, st')) ↔
       fs (normalizePath path) = none) ∧
    (∀ content, fs (normalizePath path) = some content →
      ∃ rest st', resolveImports fs opts path emptyResolverState now =
        (.ok (⟨normalizePath path, content, 0, now⟩ :: rest), st')) ∧
    (∀ (fuel depth : Nat) (p : String) (visited : List String) (st : ResolverState),
      depth > opts.maxDepth →
      resolveRecursive fs opts now (fuel + 1) p depth visited st =
        (.ok [], pushWarn st (.maxDepthReached p))) ∧
    (∀ (fuel depth : Nat) (p : String) (visited : List String) (st : ResolverState),
      ¬ depth > opts.maxDepth → normalizePath p = p → visited.contains p = true →
      resolveRecursive fs opts now (fuel + 1) p depth visited st =
        (.ok [], pushWarn st (.circularImport p))) ∧
    (∀ (step : String → ResolverState →
        Except ResolveError (List ImportedContent) × ResolverState)
       (pp tok : String) (rest : List String) (st : ResolverState),
      isAllowedExtension (resolveImportPath tok (if opts.basePath = "" then dirname pp
        else opts.basePath)) opts.allowedExtensions = false →
      processImports step fs opts pp (tok :: rest) st =
        processImports step fs opts pp rest (pushWarn st (.disallowedExtension
          (resolveImportPath tok (if opts.basePath = "" then dirname pp
            else opts.basePath))))) ∧
    (∀ (step : String → ResolverState →
        Except ResolveError (List ImportedContent) × ResolverState)
       (pp tok : String) (rest : List String) (st : ResolverState),
      isAllowedExtension (resolveImportPath tok (if opts.basePath = "" then dirname pp
        else opts.basePath)) opts.allowedExtensions = true →
      fs (resolveImportPath tok (if opts.basePath = "" then dirname pp
        else opts.basePath)) = none →
      processImports step fs opts pp (tok :: rest) st =
        processImports step fs opts pp rest (pushWarn st (.importFailed tok))) ∧
    (∀ (step : String → ResolverState →
        Except ResolveError (List ImportedContent) × ResolverState)
       (pp tok : String) (rest : List String) (st st1 : ResolverState)
       (e : ResolveError) (content : String),
      isAllowedExtension (resolveImportPath tok (if opts.basePath = "" then dirname pp
        else opts.basePath)) opts.allowedExtensions = true →
      fs (resolveImportPath tok (if opts.basePath = "" then dirname pp
        else opts.basePath)) = some content →
      step (resolveImportPath tok (if opts.basePath = "" then dirname pp
        else opts.basePath)) st = (.error e, st1) →
      processImports step fs opts pp (tok :: rest) st =
        processImports step fs opts pp rest (pushWarn st1 (.importFailed tok))) := by
  have hok : ∀ content, fs (normalizePath path) = some content →
      ∃ rest st', resolveImports fs opts path emptyResolverState now =
        (.ok (⟨normalizePath path, content, 0, now⟩ :: rest), st') := by
    intro content hfsc
    unfold resolveImports
    rw [show opts.maxDepth + 2 = (opts.maxDepth + 1) + 1 from rfl]
    rw [resolveRecursive_root fs opts now (opts.maxDepth + 1) path 0 [] emptyResolverState
      (by omega) (by simp) rfl]
    rw [hfsc]
    exact ⟨_, _, rfl⟩
  have herr : fs (normalizePath path) = none →
      resolveImports fs opts path emptyResolverState now =
        (.error (.readFailed (normalizePath path)), emptyResolverState) := by
    intro hfsc
    unfold resolveImports
    rw [show opts.maxDepth + 2 = (opts.maxDepth + 1) + 1 from rfl]
    rw [resolveRecursive_root fs opts now (opts.maxDepth + 1) path 0 [] emptyResolverState
      (by omega) (by simp) rfl, hfsc]
  refine ⟨⟨?_, ?_⟩, hok, ?_, ?_, ?_, ?_, ?_⟩
  · rintro ⟨e, st', hres⟩
    cases hfsc : fs (normalizePath path) with
    | none => rfl
    | some content =>
      obtain ⟨rest, st2, hres2⟩ := hok content hfsc
      rw [hres] at hres2
      exact absurd hres2 (by simp)
  · intro hfsc
    exact ⟨.readFailed (normalizePath path), emptyResolverState, herr hfsc⟩
  · intro fuel depth p visited st hd
    exact resolveRecursive_depth_exceeded fs opts now fuel p depth visited st hd
  · intro fuel depth p visited st hd hnorm hv
    exact resolveRecursive_cycle fs opts now fuel p depth visited st hd hnorm hv
  · intro step pp tok rest st hbad
    simp only [processImports, hbad]
    simp
  · intro step pp tok rest st hgood hmiss
    simp only [processImports, hgood, hmiss]
    simp
  · intro step pp tok rest st st1 e content hgood hsome hstep
    simp only [processImports, hgood, hsome, hstep]
    simp

/-- Witness for C9: with an empty filesystem the root read fails and
`resolveImports` throws; with a one-file filesystem it succeeds with the
root document first. -/
theorem resolveImports_root_error_semantics_witness :
    (∃ e st', resolveImports (fun _ => none) ⟨5, [".md"], false, "/"⟩ "/root.md"
        emptyResolverState 0 = (.error e, st')) ∧
    (∃ rest st', resolveImports (fun p => if p = "/root.md" then some "hello" else none)
        ⟨5, [".md"], false, "/"⟩ "/root.md" emptyResolverState 0 =
      (.ok (⟨"/root.md", "hello", 0, 0⟩ :: rest), st')) := by
  constructor
  · exact (resolveImports_root_error_semantics (fun _ => none) ⟨5, [".md"], false, "/"⟩
      "/root.md" 0).1.mpr rfl
  · exact (resolveImports_root_error_semantics
      (fun p => if p = "/root.md" then some "hello" else none)
      ⟨5, [".md"], false, "/"⟩ "/root.md" 0).2.1 "hello" rfl
